import Mathlib

/-!
# Hardware entropy sources (`rdrand.cpp`)

A shallow embedding of the byte-fill routines `ALL_RRI_GenerateBlock`,
`ALL_RSI_GenerateBlock`, `GCC_RRA_GenerateBlock`, `GCC_RSA_GenerateBlock` and of the
public operations `RDRAND::GenerateBlock`, `RDRAND::DiscardBytes`,
`RDSEED::GenerateBlock`, `RDSEED::DiscardBytes`.

Modelling conventions.

* Memory is a map from byte addresses to byte values; `output` is an address and
  the null pointer is address `0`.
* The hardware is a stream: entry `i` is the outcome of the `i`-th execution of the
  instruction during a call, a success flag together with the word that the
  instruction leaves in its destination.
* `W` is `sizeof(val)`, the width in bytes of the machine word the routine was
  compiled for (8 in the 64-bit branch of the `#if`, otherwise 4); the routines
  take it as a parameter.
* Loops are unrolled with a fuel counter; running out of fuel yields `none`.  The
  public entry points supply `size + safety + 1` units, which is shown to suffice
  whenever `0 < W`.
* `assert` is compiled out (`NDEBUG`); the asserted condition is kept as a
  separate predicate.
-/

namespace CryptoPP

/-! ## Data model -/

/-- Byte-addressed memory. -/
abbrev Mem := Nat → Nat

/-- Outcome of one execution of the hardware instruction: the carry flag and the
word left in the destination (the random word when `ok`, whatever the instruction
leaves there otherwise). -/
structure StepResult where
  ok : Bool
  val : Nat

/-- The outcomes of the successive executions of the instruction. -/
abbrev Hw := Nat → StepResult

/-- Byte `k` of the little-endian representation of `v`. -/
def byteOf (v k : Nat) : Nat := (v / 256 ^ k) % 256

/-- The effect of `memcpy(dst, &v, n)` for a word `v` held in a register or on the
stack: the `n` low-order bytes of `v` are stored at `dst .. dst + n`. -/
def memcpy (mem : Mem) (dst v n : Nat) : Mem :=
  fun a => if dst ≤ a ∧ a < dst + n then byteOf v (a - dst) else mem a

/-- The value of an `unsigned int` after `safety--` left it at zero. -/
def UINT_MAX : Nat := 2 ^ 32 - 1

/-- The local variables of a fill routine that change while it runs, together with
the memory and the number of hardware steps executed so far. -/
structure Locals where
  mem : Mem
  output : Nat
  size : Nat
  safety : Nat
  steps : Nat

/-- How the word loop of the intrinsic routine is left. -/
inductive LoopExit where
  /-- The loop condition `size >= sizeof(val)` became false. -/
  | done (s : Locals)
  /-- The statement `return 0` inside the loop was executed. -/
  | ret0 (s : Locals)

/-- What a fill routine hands back: the `int` it returns, the memory, the number of
hardware steps it executed and the content of its scratch word `val` at the moment
of return (`none` while `val` has never been assigned). -/
structure FillResult where
  rc : Nat
  mem : Mem
  steps : Nat
  val : Option Nat

/-- The asserted condition `(output && size) || !(output || size)`. -/
def pairingAssert (output size : Nat) : Bool :=
  (output != 0 && size != 0) || !(output != 0 || size != 0)

/-! ## Intrinsic fill: `ALL_RRI_GenerateBlock` / `ALL_RSI_GenerateBlock` -/

/-- The loop `while (size >= sizeof(val))` of the intrinsic routines.  The step
intrinsic is handed `output` as its destination, so the word of every step is
stored there, successful or not. -/
def wordLoop (W : Nat) (hw : Hw) : Nat → Locals → Option LoopExit
  | 0, _ => none
  | fuel + 1, s =>
    if W ≤ s.size then
      let r := hw s.steps
      let mem1 := memcpy s.mem s.output r.val W
      if r.ok then
        wordLoop W hw fuel
          { mem := mem1, output := s.output + W, size := s.size - W,
            safety := s.safety, steps := s.steps + 1 }
      else if s.safety = 0 then
        some (.ret0 { s with mem := mem1, safety := UINT_MAX, steps := s.steps + 1 })
      else
        wordLoop W hw fuel
          { s with mem := mem1, safety := s.safety - 1, steps := s.steps + 1 }
    else
      some (.done s)

/-- The part of the intrinsic routines after the word loop: the `if (size)` block
that serves the trailing bytes, the zeroing of `val` and the final `return`. -/
def tailBlock (hw : Hw) (s : Locals) : FillResult :=
  if s.size ≠ 0 then
    let r := hw s.steps
    if r.ok then
      { rc := 1, mem := memcpy s.mem s.output r.val s.size, steps := s.steps + 1,
        val := some 0 }
    else if s.safety = 0 then
      { rc := 0, mem := s.mem, steps := s.steps + 1, val := some r.val }
    else
      { rc := 0, mem := s.mem, steps := s.steps + 1, val := some 0 }
  else
    { rc := 1, mem := s.mem, steps := s.steps, val := some 0 }

/-- The routine `ALL_RRI_GenerateBlock(output, size, safety)`; `hw` is the stream of
results of `_rdrand64_step` / `_rdrand32_step`. -/
def ALL_RRI_GenerateBlock (W : Nat) (hw : Hw) (mem : Mem) (output size safety : Nat) :
    Option FillResult :=
  match wordLoop W hw (size + safety + 1)
      { mem := mem, output := output, size := size, safety := safety, steps := 0 } with
  | none => none
  | some (.ret0 s) => some { rc := 0, mem := s.mem, steps := s.steps, val := none }
  | some (.done s) => some (tailBlock hw s)

/-- The routine `ALL_RSI_GenerateBlock(output, size, safety)`; `hw` is the stream of
results of `_rdseed64_step` / `_rdseed32_step`. -/
def ALL_RSI_GenerateBlock (W : Nat) (hw : Hw) (mem : Mem) (output size safety : Nat) :
    Option FillResult :=
  match wordLoop W hw (size + safety + 1)
      { mem := mem, output := output, size := size, safety := safety, steps := 0 } with
  | none => none
  | some (.ret0 s) => some { rc := 0, mem := s.mem, steps := s.steps, val := none }
  | some (.done s) => some (tailBlock hw s)

/-! ## Inline machine code fill: `GCC_RRA_GenerateBlock` / `GCC_RSA_GenerateBlock` -/

/-- The loop `while (size)` of the inline-assembly routines.  The instruction
sequence that assigns `val` and `rc` is commented out in the sources; the model
reads both from the hardware stream, one entry for each iteration. -/
def asmLoop (W : Nat) (hw : Hw) : Nat → Locals → Option Locals
  | 0, _ => none
  | fuel + 1, s =>
    if s.size ≠ 0 then
      let r := hw s.steps
      if r.ok then
        if W ≤ s.size then
          asmLoop W hw fuel
            { mem := memcpy s.mem s.output r.val W, output := s.output + W,
              size := s.size - W, safety := s.safety, steps := s.steps + 1 }
        else
          asmLoop W hw fuel
            { s with mem := memcpy s.mem s.output r.val s.size, size := 0,
                     steps := s.steps + 1 }
      else if s.safety = 0 then
        some { s with safety := UINT_MAX, steps := s.steps + 1 }
      else
        asmLoop W hw fuel { s with safety := s.safety - 1, steps := s.steps + 1 }
    else
      some s

/-- The routine `GCC_RRA_GenerateBlock(output, size, safety)`. -/
def GCC_RRA_GenerateBlock (W : Nat) (hw : Hw) (mem : Mem) (output size safety : Nat) :
    Option FillResult :=
  match asmLoop W hw (size + safety + 1)
      { mem := mem, output := output, size := size, safety := safety, steps := 0 } with
  | none => none
  | some s =>
    some { rc := if s.size = 0 then 1 else 0, mem := s.mem, steps := s.steps,
           val := some 0 }

/-- The routine `GCC_RSA_GenerateBlock(output, size, safety)`. -/
def GCC_RSA_GenerateBlock (W : Nat) (hw : Hw) (mem : Mem) (output size safety : Nat) :
    Option FillResult :=
  match asmLoop W hw (size + safety + 1)
      { mem := mem, output := output, size := size, safety := safety, steps := 0 } with
  | none => none
  | some s =>
    some { rc := if s.size = 0 then 1 else 0, mem := s.mem, steps := s.steps,
           val := some 0 }

/-! ## The entropy sources -/

/-- The exceptions raised in `rdrand.cpp`, each with its string argument. -/
inductive Exception where
  | NotImplemented (what : String)
  | RDRAND_Err (operation : String)
  | RDSEED_Err (operation : String)
  deriving DecidableEq, Repr

/-- The branch of the `#if … #elif … #else` chain in `GenerateBlock` that the
preprocessor keeps. -/
inductive FillImpl where
  | MASM
  | NASM
  | ALL_INTRIN
  | GCC_ASM
  | NONE
  deriving DecidableEq, Repr

/-- An externally assembled fill routine (`MASM_…`, `NASM_…`): only its C
signature is known, so it is an arbitrary function of the hardware stream, the
memory and its three arguments. -/
abbrev AsmRoutine := Hw → Mem → Nat → Nat → Nat → Option FillResult

/-- Build configuration: `rdrandW` and `rdseedW` are `sizeof(val)` in the fill
routine of either source (they are chosen by separate `#if` lines, and the one in
`ALL_RRI_GenerateBlock` tests the macro name `CRYTPOPP_BOOL_X32`), `discardWord`
the size of the element type of the scratch block in `DiscardBytes`
(`sizeof(word64)` or `sizeof(word32)`), `SIZE_MAX` the largest `size_t`; then the
routine selected for each source and the separately assembled routines. -/
structure Build where
  rdrandW : Nat
  rdseedW : Nat
  discardWord : Nat
  SIZE_MAX : Nat
  rdrandImpl : FillImpl
  rdseedImpl : FillImpl
  MASM_RRA_GenerateBlock : AsmRoutine
  NASM_RRA_GenerateBlock : AsmRoutine
  MASM_RSA_GenerateBlock : AsmRoutine
  NASM_RSA_GenerateBlock : AsmRoutine

/-- The answers of the capability probe of `cpu.h`. -/
structure Cpu where
  hasRDRAND : Bool
  hasRDSEED : Bool

/-- The probe `HasRDRAND()`. -/
def HasRDRAND (cpu : Cpu) : Bool := cpu.hasRDRAND

/-- The probe `HasRDSEED()`. -/
def HasRDSEED (cpu : Cpu) : Bool := cpu.hasRDSEED

/-- What a call of `GenerateBlock` leaves behind: the exception thrown, if any, the
memory, and the number of hardware steps executed. -/
structure GenResult where
  thrown : Option Exception
  mem : Mem
  steps : Nat

/-- The statement pair `rc = F(…); if (!rc) { throw E; }`. -/
def throwIfZero (e : Exception) (r : Option FillResult) : Option GenResult :=
  match r with
  | none => none
  | some f => some { thrown := if f.rc = 0 then some e else none, mem := f.mem,
                     steps := f.steps }

/-- The method `RDRAND::GenerateBlock(output, size)`; `m_retries` is the member
holding the retry budget. -/
def RDRAND.GenerateBlock (b : Build) (cpu : Cpu) (hw : Hw) (m_retries : Nat)
    (mem : Mem) (output size : Nat) : Option GenResult :=
  if !HasRDRAND cpu then
    some { thrown := some (.NotImplemented "RDRAND: rdrand is not available on this platform"),
           mem := mem, steps := 0 }
  else
    match b.rdrandImpl with
    | .MASM => throwIfZero (.RDRAND_Err "MASM_RRA_GenerateBlock")
        (b.MASM_RRA_GenerateBlock hw mem output size m_retries)
    | .NASM => throwIfZero (.RDRAND_Err "NASM_RRA_GenerateBlock")
        (b.NASM_RRA_GenerateBlock hw mem output size m_retries)
    | .ALL_INTRIN => throwIfZero (.RDRAND_Err "ALL_RRI_GenerateBlock")
        (ALL_RRI_GenerateBlock b.rdrandW hw mem output size m_retries)
    | .GCC_ASM => throwIfZero (.RDRAND_Err "GCC_RRA_GenerateBlock")
        (GCC_RRA_GenerateBlock b.rdrandW hw mem output size m_retries)
    | .NONE =>
      some { thrown := some (.NotImplemented "RDRAND: failed to find a suitable implementation???"),
             mem := mem, steps := 0 }

/-- The method `RDSEED::GenerateBlock(output, size)`. -/
def RDSEED.GenerateBlock (b : Build) (cpu : Cpu) (hw : Hw) (m_retries : Nat)
    (mem : Mem) (output size : Nat) : Option GenResult :=
  if !HasRDSEED cpu then
    some { thrown := some (.NotImplemented "RDSEED: rdseed is not available on this platform"),
           mem := mem, steps := 0 }
  else
    match b.rdseedImpl with
    | .MASM => throwIfZero (.RDSEED_Err "MASM_RSA_GenerateBlock")
        (b.MASM_RSA_GenerateBlock hw mem output size m_retries)
    | .NASM => throwIfZero (.RDRAND_Err "NASM_RSA_GenerateBlock")
        (b.NASM_RSA_GenerateBlock hw mem output size m_retries)
    | .ALL_INTRIN => throwIfZero (.RDSEED_Err "ALL_RSI_GenerateBlock")
        (ALL_RSI_GenerateBlock b.rdseedW hw mem output size m_retries)
    | .GCC_ASM => throwIfZero (.RDSEED_Err "GCC_RSA_GenerateBlock")
        (GCC_RSA_GenerateBlock b.rdseedW hw mem output size m_retries)
    | .NONE =>
      some { thrown := some (.NotImplemented "RDSEED: failed to find a suitable implementation???"),
             mem := mem, steps := 0 }

/-- Modelled from the spec: the helper `RoundUpToMultipleOf` of `misc.h` is not
among the sources.  Section 4.2: "Rounds `n` up to the nearest multiple of the
machine word size".  Nothing is said about a sum `n + m - 1` that does not fit
`size_t`; the model gives no result there. -/
def RoundUpToMultipleOf (SIZE_MAX n m : Nat) : Option Nat :=
  if n + m - 1 ≤ SIZE_MAX then some ((n + m - 1) / m * m) else none

/-- The library template `STDMIN`. -/
def STDMIN (a b : Nat) : Nat := if b < a then b else a

/-- The variables of the loop in `DiscardBytes`, the memory, the number of hardware
steps executed so far and the sizes passed to `GenerateBlock` so far. -/
structure DiscardState where
  mem : Mem
  n : Nat
  count : Nat
  steps : Nat
  requests : List Nat

/-- What a call of `DiscardBytes` leaves behind. -/
structure DiscardResult where
  thrown : Option Exception
  mem : Mem
  steps : Nat
  requests : List Nat

/-- The loop `while (count)` of `DiscardBytes`.  `gen hw mem count` stands for the
call `GenerateBlock(discard.BytePtr(), count)`, `cap` for `discard.SizeInBytes()`.
Every call sees the hardware stream from where the previous one left it; an
exception thrown by a call leaves the loop. -/
def discardLoop (gen : Hw → Mem → Nat → Option GenResult) (cap : Nat) (hw : Hw) :
    Nat → DiscardState → Option DiscardResult
  | 0, _ => none
  | fuel + 1, s =>
    if s.count ≠ 0 then
      match gen (fun i => hw (s.steps + i)) s.mem s.count with
      | none => none
      | some g =>
        match g.thrown with
        | some e =>
          some { thrown := some e, mem := g.mem, steps := s.steps + g.steps,
                 requests := s.requests ++ [s.count] }
        | none =>
          discardLoop gen cap hw fuel
            { mem := g.mem, n := s.n - s.count, count := STDMIN (s.n - s.count) cap,
              steps := s.steps + g.steps, requests := s.requests ++ [s.count] }
    else
      some { thrown := none, mem := s.mem, steps := s.steps, requests := s.requests }

/-- The body shared by the two `DiscardBytes` methods once `GenerateBlock` is
fixed: round `n`, then run the loop over a scratch block of 16 words located at
address `discard`. -/
def discardBody (b : Build) (gen : Hw → Mem → Nat → Option GenResult) (hw : Hw)
    (mem : Mem) (n : Nat) : Option DiscardResult :=
  match RoundUpToMultipleOf b.SIZE_MAX n b.discardWord with
  | none => none
  | some n1 =>
    discardLoop gen (16 * b.discardWord) hw (n1 + 1)
      { mem := mem, n := n1, count := STDMIN n1 (16 * b.discardWord), steps := 0,
        requests := [] }

/-- The method `RDRAND::DiscardBytes(n)`; `discard` is the address of the scratch
block. -/
def RDRAND.DiscardBytes (b : Build) (cpu : Cpu) (hw : Hw) (m_retries : Nat)
    (mem : Mem) (discard n : Nat) : Option DiscardResult :=
  discardBody b (fun h m count => RDRAND.GenerateBlock b cpu h m_retries m discard count)
    hw mem n

/-- The method `RDSEED::DiscardBytes(n)`. -/
def RDSEED.DiscardBytes (b : Build) (cpu : Cpu) (hw : Hw) (m_retries : Nat)
    (mem : Mem) (discard n : Nat) : Option DiscardResult :=
  discardBody b (fun h m count => RDSEED.GenerateBlock b cpu h m_retries m discard count)
    hw mem n

/-! ## Vocabulary of the statements -/

/-- The final local variables carried by a loop exit. -/
def LoopExit.locals : LoopExit → Locals
  | .done s => s
  | .ret0 s => s

/-- The words delivered by the successful ones among the `n` steps numbered
`t, …, t + n - 1`, in the order of the steps. -/
def okWords (hw : Hw) : Nat → Nat → List Nat
  | _, 0 => []
  | t, n + 1 =>
    if (hw t).ok then (hw t).val :: okWords hw (t + 1) n else okWords hw (t + 1) n

/-- The `W` bytes of a word in memory order. -/
def wordBytes (W v : Nat) : List Nat := (List.range W).map (byteOf v)

/-- The concatenation of the `W`-byte images of a list of words. -/
def concatWords (W : Nat) : List Nat → List Nat
  | [] => []
  | v :: ws => wordBytes W v ++ concatWords W ws

/-- The `n` bytes of memory starting at address `a`. -/
def readBytes (mem : Mem) (a n : Nat) : List Nat := (List.range n).map (fun i => mem (a + i))

/-! ## Concrete inputs -/

/-- A stream whose first `k` steps fail and whose later steps all succeed; step
`i` delivers the word `0x1122334455667700 + i`, a failed step leaves zero. -/
def failFirst (k : Nat) : Hw :=
  fun i => { ok := decide (k ≤ i), val := if k ≤ i then 0x1122334455667700 + i else 0 }

/-- A stream in which every third step fails, starting with step 0. -/
def sampleHw : Hw := fun i => { ok := i % 3 != 0, val := 0x0807060504030201 + i }

/-- A memory filled with the sentinel byte `0xEE`. -/
def sampleMem : Mem := fun _ => 0xEE

/-- An assembled routine that is never called in the sample builds. -/
def absentAsm : AsmRoutine := fun _ _ _ _ _ => none

/-- A 64-bit build that selects the intrinsic fill for both sources. -/
def intrinsicBuild : Build :=
  { rdrandW := 8, rdseedW := 8, discardWord := 8, SIZE_MAX := 2 ^ 64 - 1,
    rdrandImpl := .ALL_INTRIN, rdseedImpl := .ALL_INTRIN,
    MASM_RRA_GenerateBlock := absentAsm, NASM_RRA_GenerateBlock := absentAsm,
    MASM_RSA_GenerateBlock := absentAsm, NASM_RSA_GenerateBlock := absentAsm }

/-- What the word loop has achieved when it is left through `e` after `n` steps,
started from the locals `s`: where it stands, which bytes it has produced and
which it has left alone, and how the failures relate to the retry budget. -/
structure LoopPost (W : Nat) (hw : Hw) (s : Locals) (e : LoopExit) (n : Nat) : Prop where
  steps_eq : e.locals.steps = s.steps + n
  output_eq : e.locals.output = s.output + W * (okWords hw s.steps n).length
  size_eq : e.locals.size + W * (okWords hw s.steps n).length = s.size
  frame_lo : ∀ a, a < s.output → e.locals.mem a = s.mem a
  frame_hi : ∀ a, e.locals.output + W ≤ a → e.locals.mem a = s.mem a
  content : ∀ i, i < W * (okWords hw s.steps n).length →
    e.locals.mem (s.output + i) = (concatWords W (okWords hw s.steps n)).getD i 0
  on_done : ∀ o, e = .done o →
    o.size < W ∧ n + o.safety = (okWords hw s.steps n).length + s.safety ∧
      ∀ a, o.output ≤ a → o.mem a = s.mem a
  on_ret0 : ∀ o, e = .ret0 o →
    W ≤ o.size ∧ n = (okWords hw s.steps n).length + s.safety + 1

/-- An assembled routine that reports failure at once. -/
def failingAsm : AsmRoutine :=
  fun _ mem _ _ _ => some { rc := 0, mem := mem, steps := 0, val := none }

/-- A 64-bit build that selects the branch `impl` of the `#if` chain for both
sources and whose assembled routines report failure. -/
def buildWith (impl : FillImpl) : Build :=
  { rdrandW := 8, rdseedW := 8, discardWord := 8, SIZE_MAX := 2 ^ 64 - 1,
    rdrandImpl := impl, rdseedImpl := impl,
    MASM_RRA_GenerateBlock := failingAsm, NASM_RRA_GenerateBlock := failingAsm,
    MASM_RSA_GenerateBlock := failingAsm, NASM_RSA_GenerateBlock := failingAsm }

/-- A stream whose first step succeeds and whose later steps all fail. -/
def okThenFail : Hw := fun i => { ok := decide (i < 1), val := if i < 1 then 0x0102030405060708 else 0 }

end CryptoPP

/-! # The cipher binding (`aesgcmmodule.cpp`) -/

namespace pycryptopp

/-- A Python string object, as the list of its bytes. -/
abbrev PyString := List Nat

/-- The fields of an `AESGCM` object that `decrypt_and_verify` reads besides the
cipher: the IV kept by `__init__` (`iv` with `ivsize`). -/
structure AESGCM where
  iv : List Nat

/-- The cipher method `DecryptAndVerify(message, mac, macLength, iv, ivLength,
header, headerLength, ciphertext, ciphertextLength)` of the library, taken as
given: from the tag, the IV, the header and the ciphertext it yields the
verification result it returns and, for every index below the ciphertext length,
the byte it stores in `message`. -/
abbrev Cipher := List Nat → List Nat → List Nat → List Nat → Bool × (Nat → Nat)

/-- The function `AESGCM_decrypt_verify(self, args)` for an argument tuple that
parses into the strings `msg` and `tag`.  `alloc` tells whether
`PyString_FromStringAndSize(NULL, msgsize)` delivers a string; `d` is the cipher
`self->d`; `none` is the return value `NULL`.  The call of `DecryptAndVerify` is a
statement of its own: what it returns is not looked at. -/
def AESGCM_decrypt_verify (alloc : Nat → Bool) (d : Cipher) (self : AESGCM)
    (msg tag : PyString) : Option PyString :=
  if !alloc msg.length then
    none
  else
    let message := (d tag self.iv [] msg).2
    some ((List.range msg.length).map message)

/-- A cipher that stores the ciphertext bytes incremented by one and reports the
tag as wrong. -/
def rejectingCipher : Cipher :=
  fun _ _ _ ciphertext => (false, fun i => ciphertext.getD i 0 + 1)

end pycryptopp

namespace CryptoPP

/-- What the loop of the inline-assembly routines has achieved when it is left
with the locals `o` after `n` steps, started from `s`: either all bytes are in
place (`o.size = 0`) or a failed step found the budget used up. -/
structure AsmPost (W : Nat) (hw : Hw) (s o : Locals) (n : Nat) : Prop where
  steps_eq : o.steps = s.steps + n
  frame : ∀ a, a < s.output ∨ s.output + s.size ≤ a → o.mem a = s.mem a
  content : ∀ i, i < W * (okWords hw s.steps n).length → i < s.size →
    o.mem (s.output + i) = (concatWords W (okWords hw s.steps n)).getD i 0
  on_filled : o.size = 0 →
    s.size ≤ W * (okWords hw s.steps n).length ∧
      W * (okWords hw s.steps n).length < s.size + W ∧
      n + o.safety = (okWords hw s.steps n).length + s.safety
  on_break : o.size ≠ 0 →
    o.size + W * (okWords hw s.steps n).length = s.size ∧
      n = (okWords hw s.steps n).length + s.safety + 1 ∧
      ∀ a, s.output + W * (okWords hw s.steps n).length ≤ a → o.mem a = s.mem a

/-- The sizes the claim on chunking expects `DiscardBytes` to request for a rounded
count `R` and a scratch capacity `C`: `R / C` requests of `C` bytes, then one of
`R % C` bytes when that is not zero. -/
def chunks (R C : Nat) : List Nat :=
  List.replicate (R / C) C ++ (if R % C = 0 then [] else [R % C])

/-- The state in which `DiscardBytes` enters its loop: nothing thrown, no
hardware step executed, no call made. -/
def discardStart (mem : Mem) : DiscardResult :=
  { thrown := none, mem := mem, steps := 0, requests := [] }

/-- The calls `GenerateBlock(discard, c)` for the sizes `c` of a list, made one
after the other: every call works on the memory the previous one has left and
on the hardware stream from the step the previous one has reached; the first
call that throws ends the sequence with its exception.  `gen` stands for
`GenerateBlock`; `requests` lists the sizes of the calls made. -/
def callsInOrder (gen : Hw → Mem → Nat → Option GenResult) (hw : Hw) :
    List Nat → DiscardResult → Option DiscardResult
  | [], acc => some acc
  | c :: cs, acc =>
    match gen (fun i => hw (acc.steps + i)) acc.mem c with
    | none => none
    | some g =>
      match g.thrown with
      | some e =>
        some { thrown := some e, mem := g.mem, steps := acc.steps + g.steps,
               requests := acc.requests ++ [c] }
      | none =>
        callsInOrder gen hw cs
          { thrown := none, mem := g.mem, steps := acc.steps + g.steps,
            requests := acc.requests ++ [c] }

theorem wordBytes_length (W v : Nat) : (wordBytes W v).length = W := by
  simp [wordBytes]

theorem concatWords_length (W : Nat) (ws : List Nat) :
    (concatWords W ws).length = W * ws.length := by
  induction ws with
  | nil => simp [concatWords]
  | cons v ws ih => simp [concatWords, wordBytes_length, ih, Nat.mul_succ, Nat.add_comm]

theorem concatWords_cons_getD (W v : Nat) (ws : List Nat) (i : Nat) :
    (concatWords W (v :: ws)).getD i 0 =
      if i < W then byteOf v i else (concatWords W ws).getD (i - W) 0 := by
  by_cases h : i < W
  · simp only [concatWords, h, if_true]
    rw [List.getD_append _ _ _ _ (by simpa [wordBytes_length] using h)]
    simp [wordBytes, List.getD_eq_getElem?_getD, h]
  · simp only [concatWords, h, if_false]
    rw [List.getD_append_right _ _ _ _ (by simpa [wordBytes_length] using h)]
    simp [wordBytes_length]

theorem okWords_succ_last (hw : Hw) (n : Nat) : ∀ t,
    okWords hw t (n + 1) =
      okWords hw t n ++ (if (hw (t + n)).ok then [(hw (t + n)).val] else []) := by
  induction n with
  | zero => intro t; simp [okWords]
  | succ n ih =>
    intro t
    rw [okWords, ih (t + 1)]
    have e : t + 1 + n = t + (n + 1) := by omega
    rw [e]
    by_cases h : (hw t).ok
    · simp [okWords, h]
    · simp [okWords, h]

theorem okWords_length_le (hw : Hw) (n : Nat) : ∀ t, (okWords hw t n).length ≤ n := by
  induction n with
  | zero => intro t; simp [okWords]
  | succ n ih =>
    intro t
    have := ih (t + 1)
    by_cases h : (hw t).ok
    · simp [okWords, h]; omega
    · simp [okWords, h]; omega

theorem okWords_mono (hw : Hw) (t n d : Nat) :
    (okWords hw t n).length ≤ (okWords hw t (n + d)).length ∧
      n - (okWords hw t n).length ≤ n + d - (okWords hw t (n + d)).length := by
  induction d with
  | zero => simp
  | succ d ih =>
    have e : n + (d + 1) = (n + d) + 1 := by omega
    rw [e, okWords_succ_last]
    have := okWords_length_le hw (n + d) t
    by_cases h : (hw (t + (n + d))).ok
    · simp [h]; omega
    · simp [h]; omega

theorem memcpy_outside (mem : Mem) (dst v n a : Nat) (h : a < dst ∨ dst + n ≤ a) :
    memcpy mem dst v n a = mem a := by
  unfold memcpy
  rw [if_neg]
  omega

theorem memcpy_inside (mem : Mem) (dst v n i : Nat) (h : i < n) :
    memcpy mem dst v n (dst + i) = byteOf v i := by
  unfold memcpy
  rw [if_pos (by omega)]
  congr 1
  omega

/-- The word loop always comes to an end within `size + safety + 1` iterations and
then satisfies `LoopPost`. -/
theorem wordLoop_spec (W : Nat) (hW : 0 < W) (hw : Hw) : ∀ (fuel : Nat) (s : Locals),
    s.size + s.safety < fuel →
      ∃ e n, wordLoop W hw fuel s = some e ∧ LoopPost W hw s e n := by
  intro fuel
  induction fuel with
  | zero => intro s h; omega
  | succ fuel ih =>
    intro s hfuel
    by_cases hsz : W ≤ s.size
    · by_cases hok : (hw s.steps).ok = true
      · -- a successful step: one word is in place, the loop goes on behind it
        obtain ⟨e, n, he, hp⟩ := ih
          { mem := memcpy s.mem s.output (hw s.steps).val W, output := s.output + W,
            size := s.size - W, safety := s.safety, steps := s.steps + 1 }
          (by simp only; omega)
        refine ⟨e, n + 1, ?_, ?_⟩
        · rw [wordLoop]; simp only [hsz, hok, if_true]; exact he
        · have hw1 : okWords hw s.steps (n + 1)
              = (hw s.steps).val :: okWords hw (s.steps + 1) n := by
            simp [okWords, hok]
          have h1 := hp.steps_eq
          have h2 := hp.output_eq
          have h3 := hp.size_eq
          simp only at h1 h2 h3
          constructor
          · omega
          · rw [hw1, List.length_cons, Nat.mul_succ]; omega
          · rw [hw1, List.length_cons, Nat.mul_succ]; omega
          · intro a ha
            rw [hp.frame_lo a (by simp only; omega)]
            exact memcpy_outside _ _ _ _ _ (Or.inl ha)
          · intro a ha
            rw [hp.frame_hi a ha]
            exact memcpy_outside _ _ _ _ _ (Or.inr (by omega))
          · intro i hi
            rw [hw1, concatWords_cons_getD]
            rw [hw1, List.length_cons, Nat.mul_succ] at hi
            by_cases hiW : i < W
            · rw [if_pos hiW, hp.frame_lo (s.output + i) (by simp only; omega)]
              exact memcpy_inside _ _ _ _ _ hiW
            · rw [if_neg hiW]
              have hc := hp.content
              simp only at hc
              rw [← hc (i - W) (by omega)]
              congr 1
              omega
          · intro o ho
            obtain ⟨d1, d2, d3⟩ := hp.on_done o ho
            refine ⟨d1, ?_, ?_⟩
            · rw [hw1, List.length_cons]; simp only at d2; omega
            · intro a ha
              have hoo : o.output = e.locals.output := by rw [ho]; rfl
              rw [d3 a ha]
              exact memcpy_outside _ _ _ _ _ (Or.inr (by omega))
          · intro o ho
            obtain ⟨r1, r2⟩ := hp.on_ret0 o ho
            refine ⟨r1, ?_⟩
            rw [hw1, List.length_cons]; simp only at r2; omega
      · by_cases hsaf : s.safety = 0
        · -- a failed step with the budget used up: `return 0`
          refine ⟨.ret0 { s with mem := memcpy s.mem s.output (hw s.steps).val W,
                                 safety := UINT_MAX, steps := s.steps + 1 }, 1, ?_, ?_⟩
          · rw [wordLoop]; simp [hsz, hok, hsaf]
          · have hw1 : okWords hw s.steps 1 = [] := by simp [okWords, hok]
            constructor
            · rfl
            · rw [hw1]; simp [LoopExit.locals]
            · rw [hw1]; simp [LoopExit.locals]
            · intro a ha
              exact memcpy_outside _ _ _ _ _ (Or.inl ha)
            · intro a ha
              exact memcpy_outside _ _ _ _ _ (Or.inr ha)
            · intro i hi
              rw [hw1] at hi
              simp at hi
            · intro o ho
              cases ho
            · intro o ho
              cases ho
              rw [hw1]
              exact ⟨hsz, by simp [hsaf]⟩
        · -- a failed step that is tolerated: the budget loses one unit
          obtain ⟨e, n, he, hp⟩ := ih
            { s with mem := memcpy s.mem s.output (hw s.steps).val W,
                     safety := s.safety - 1, steps := s.steps + 1 }
            (by simp only; omega)
          refine ⟨e, n + 1, ?_, ?_⟩
          · rw [wordLoop]; simp only [hsz, hok, hsaf, if_true, if_false]; exact he
          · have hw1 : okWords hw s.steps (n + 1) = okWords hw (s.steps + 1) n := by
              simp [okWords, hok]
            have h1 := hp.steps_eq
            have h2 := hp.output_eq
            have h3 := hp.size_eq
            simp only at h1 h2 h3
            constructor
            · omega
            · rw [hw1]; exact h2
            · rw [hw1]; exact h3
            · intro a ha
              rw [hp.frame_lo a ha]
              exact memcpy_outside _ _ _ _ _ (Or.inl ha)
            · intro a ha
              rw [hp.frame_hi a ha]
              exact memcpy_outside _ _ _ _ _ (Or.inr (by omega))
            · intro i hi
              rw [hw1] at hi ⊢
              exact hp.content i hi
            · intro o ho
              obtain ⟨d1, d2, d3⟩ := hp.on_done o ho
              have hoo : o.output = e.locals.output := by rw [ho]; rfl
              have hos : o.size = e.locals.size := by rw [ho]; rfl
              refine ⟨d1, ?_, ?_⟩
              · rw [hw1]; simp only at d2; omega
              · intro a ha
                rw [d3 a ha]
                -- the loop is left with `size < W`, so at least one word lies
                -- between the failed store and the final position
                have hj : 0 < (okWords hw (s.steps + 1) n).length := by
                  rcases Nat.eq_zero_or_pos (okWords hw (s.steps + 1) n).length with h0 | h0
                  · rw [h0] at h3; omega
                  · exact h0
                have : W ≤ W * (okWords hw (s.steps + 1) n).length :=
                  Nat.le_mul_of_pos_right W hj
                exact memcpy_outside _ _ _ _ _ (Or.inr (by omega))
            · intro o ho
              obtain ⟨r1, r2⟩ := hp.on_ret0 o ho
              refine ⟨r1, ?_⟩
              rw [hw1]; simp only at r2; omega
    · -- the loop condition is false
      refine ⟨.done s, 0, ?_, ?_⟩
      · rw [wordLoop]; simp [hsz]
      · constructor
        · rfl
        · simp [okWords, LoopExit.locals]
        · simp [okWords, LoopExit.locals]
        · intro a _; rfl
        · intro a _; rfl
        · intro i hi; simp [okWords] at hi
        · intro o ho
          cases ho
          exact ⟨by omega, by simp [okWords], fun a _ => rfl⟩
        · intro o ho
          cases ho

/-- The shape of every run of the intrinsic routine: the word loop ends, and the
result is read off from the way it ended. -/
theorem ALL_RRI_cases (W : Nat) (hW : 0 < W) (hw : Hw) (mem : Mem)
    (output size safety : Nat) :
    ∃ e n,
      LoopPost W hw
        { mem := mem, output := output, size := size, safety := safety, steps := 0 } e n ∧
      ALL_RRI_GenerateBlock W hw mem output size safety =
        some (match e with
          | .ret0 o => { rc := 0, mem := o.mem, steps := o.steps, val := none }
          | .done o => tailBlock hw o) := by
  obtain ⟨e, n, he, hp⟩ := wordLoop_spec W hW hw (size + safety + 1)
    { mem := mem, output := output, size := size, safety := safety, steps := 0 }
    (by simp only; omega)
  refine ⟨e, n, hp, ?_⟩
  unfold ALL_RRI_GenerateBlock
  rw [he]
  cases e <;> rfl

theorem ALL_RSI_eq_ALL_RRI : ALL_RSI_GenerateBlock = ALL_RRI_GenerateBlock := rfl

theorem concatWords_append (W : Nat) (xs ys : List Nat) :
    concatWords W (xs ++ ys) = concatWords W xs ++ concatWords W ys := by
  induction xs with
  | nil => simp [concatWords]
  | cons x xs ih => simp [concatWords, ih]

theorem readBytes_eq_take (mem : Mem) (a n : Nat) (L : List Nat) (hlen : n ≤ L.length)
    (h : ∀ i, i < n → mem (a + i) = L.getD i 0) : readBytes mem a n = L.take n := by
  apply List.ext_getElem
  · simp [readBytes, hlen]
  · intro i h1 h2
    have hi : i < n := by simpa [readBytes] using h1
    have hiL : i < L.length := by omega
    simp only [readBytes, List.getElem_map, List.getElem_range, List.getElem_take]
    rw [h i hi, List.getD_eq_getElem _ _ hiL]

theorem okWords_all_ok (hw : Hw) (hall : ∀ i, (hw i).ok = true) (n : Nat) :
    ∀ t, (okWords hw t n).length = n := by
  induction n with
  | zero => intro t; simp [okWords]
  | succ n ih => intro t; simp [okWords, hall t, ih (t + 1)]

theorem tailBlock_zero (hw : Hw) (s : Locals) (h : s.size = 0) :
    tailBlock hw s = { rc := 1, mem := s.mem, steps := s.steps, val := some 0 } := by
  simp [tailBlock, h]

theorem tailBlock_ok (hw : Hw) (s : Locals) (h : s.size ≠ 0) (hok : (hw s.steps).ok = true) :
    tailBlock hw s =
      { rc := 1, mem := memcpy s.mem s.output (hw s.steps).val s.size,
        steps := s.steps + 1, val := some 0 } := by
  simp [tailBlock, h, hok]

theorem tailBlock_fail (hw : Hw) (s : Locals) (h : s.size ≠ 0)
    (hok : ¬ (hw s.steps).ok = true) :
    (tailBlock hw s).rc = 0 ∧ (tailBlock hw s).mem = s.mem ∧
      (tailBlock hw s).steps = s.steps + 1 ∧
      (tailBlock hw s).val = some (if s.safety = 0 then (hw s.steps).val else 0) := by
  by_cases hs : s.safety = 0 <;> simp [tailBlock, h, hok, hs]

theorem div_mod_of_decomp (W j r size : Nat) (h : r + W * j = size) (hr : r < W) :
    size / W = j ∧ size % W = r := by
  have hW : 0 < W := by omega
  subst h
  constructor
  · rw [Nat.add_mul_div_left _ _ hW, Nat.div_eq_of_lt hr, Nat.zero_add]
  · rw [Nat.add_mul_mod_self_left, Nat.mod_eq_of_lt hr]

theorem STDMIN_le_left (a b : Nat) : STDMIN a b ≤ a := by
  unfold STDMIN
  split <;> omega

theorem STDMIN_eq_zero (a b : Nat) (hb : 0 < b) (h : STDMIN a b = 0) : a = 0 := by
  unfold STDMIN at h
  split at h <;> omega

/-- The loop of `DiscardBytes` ends whenever every call of `GenerateBlock` returns
or throws; if no call throws, the sizes requested add up to `n`. -/
theorem discardLoop_sum (gen : Hw → Mem → Nat → Option GenResult) (cap : Nat) (hw : Hw)
    (hcap : 0 < cap) (hgen : ∀ h m c, gen h m c ≠ none) : ∀ (fuel : Nat) (s : DiscardState),
    s.n < fuel → s.count = STDMIN s.n cap →
      ∃ r, discardLoop gen cap hw fuel s = some r ∧
        (r.thrown = none → r.requests.sum = s.requests.sum + s.n) := by
  intro fuel
  induction fuel with
  | zero => intro s h; omega
  | succ fuel ih =>
    intro s hfuel hcount
    by_cases hc : s.count = 0
    · refine ⟨{ thrown := none, mem := s.mem, steps := s.steps, requests := s.requests },
        ?_, ?_⟩
      · rw [discardLoop]; simp [hc]
      · intro _
        have := STDMIN_eq_zero s.n cap hcap (by rw [← hcount]; exact hc)
        simp [this]
    · have hle : s.count ≤ s.n := by rw [hcount]; exact STDMIN_le_left _ _
      cases hg : gen (fun i => hw (s.steps + i)) s.mem s.count with
      | none => exact absurd hg (hgen _ _ _)
      | some g =>
        cases ht : g.thrown with
        | some ex =>
          refine ⟨{ thrown := some ex, mem := g.mem, steps := s.steps + g.steps,
                    requests := s.requests ++ [s.count] }, ?_, ?_⟩
          · rw [discardLoop]; simp [hc, hg, ht]
          · intro h; simp at h
        | none =>
          obtain ⟨r, hr, hsum⟩ := ih
            { mem := g.mem, n := s.n - s.count, count := STDMIN (s.n - s.count) cap,
              steps := s.steps + g.steps, requests := s.requests ++ [s.count] }
            (by simp only; omega) rfl
          refine ⟨r, ?_, ?_⟩
          · rw [discardLoop]; simp [hc, hg, ht]; exact hr
          · intro h
            rw [hsum h]
            simp only [List.sum_append, List.sum_cons, List.sum_nil]
            omega

/-- The body of `DiscardBytes`: when the rounded count fits `size_t` the call
ends, and if nothing is thrown the sizes requested add up to the rounded
count. -/
theorem discardBody_sum (b : Build) (gen : Hw → Mem → Nat → Option GenResult) (hw : Hw)
    (mem : Mem) (n : Nat) (hW : 0 < b.discardWord)
    (hfit : n + b.discardWord - 1 ≤ b.SIZE_MAX) (hgen : ∀ h m c, gen h m c ≠ none) :
    ∃ r, discardBody b gen hw mem n = some r ∧
      (r.thrown = none →
        r.requests.sum = b.discardWord * ((n + b.discardWord - 1) / b.discardWord)) := by
  obtain ⟨r, hr, hsum⟩ := discardLoop_sum gen (16 * b.discardWord) hw (by omega) hgen
    ((n + b.discardWord - 1) / b.discardWord * b.discardWord + 1)
    { mem := mem, n := (n + b.discardWord - 1) / b.discardWord * b.discardWord,
      count := STDMIN ((n + b.discardWord - 1) / b.discardWord * b.discardWord)
        (16 * b.discardWord),
      steps := 0, requests := [] }
    (by simp only; omega) rfl
  refine ⟨r, ?_, ?_⟩
  · unfold discardBody RoundUpToMultipleOf
    rw [if_pos hfit]
    exact hr
  · intro h
    rw [hsum h]
    simp [Nat.mul_comm]

/-- The rounded count is the least multiple of `W` that is at least `n`. -/
theorem roundUp_least (W n : Nat) (hW : 0 < W) :
    n ≤ W * ((n + W - 1) / W) ∧ ∀ k, n ≤ W * k → W * ((n + W - 1) / W) ≤ W * k := by
  have hdm := Nat.div_add_mod (n + W - 1) W
  have hlt := Nat.mod_lt (n + W - 1) hW
  refine ⟨by omega, fun k hk => ?_⟩
  apply Nat.mul_le_mul_left
  apply Nat.le_of_lt_succ
  apply Nat.lt_of_mul_lt_mul_left (a := W)
  rw [Nat.mul_succ]
  omega

/-- With the intrinsic fill selected and a positive word width, every call of
`RDRAND::GenerateBlock` returns or throws. -/
theorem RDRAND_GenerateBlock_total (b : Build) (hW : 0 < b.rdrandW)
    (himpl : b.rdrandImpl = .ALL_INTRIN) (cpu : Cpu) (hw : Hw) (m_retries : Nat)
    (mem : Mem) (output size : Nat) :
    RDRAND.GenerateBlock b cpu hw m_retries mem output size ≠ none := by
  obtain ⟨e, n, -, hr⟩ := ALL_RRI_cases b.rdrandW hW hw mem output size m_retries
  unfold RDRAND.GenerateBlock
  split
  · simp
  · rw [himpl]
    simp only
    rw [hr]
    simp [throwIfZero]

/-- The same for `RDSEED::GenerateBlock`. -/
theorem RDSEED_GenerateBlock_total (b : Build) (hW : 0 < b.rdseedW)
    (himpl : b.rdseedImpl = .ALL_INTRIN) (cpu : Cpu) (hw : Hw) (m_retries : Nat)
    (mem : Mem) (output size : Nat) :
    RDSEED.GenerateBlock b cpu hw m_retries mem output size ≠ none := by
  obtain ⟨e, n, -, hr⟩ := ALL_RRI_cases b.rdseedW hW hw mem output size m_retries
  unfold RDSEED.GenerateBlock
  split
  · simp
  · rw [himpl]
    simp only
    rw [ALL_RSI_eq_ALL_RRI, hr]
    simp [throwIfZero]

theorem okWords_failFirst_length (hw : Hw) (k : Nat)
    (hk : ∀ i, (hw i).ok = decide (k ≤ i)) (n : Nat) :
    (okWords hw 0 n).length = n - k := by
  induction n with
  | zero => simp [okWords]
  | succ n ih =>
    rw [okWords_succ_last, List.length_append, ih, Nat.zero_add, hk n]
    by_cases h : k ≤ n
    · simp [h]; omega
    · simp [h]; omega

/-- When at least one whole word is requested and the hardware fails on its
first `k` steps only, the intrinsic fill returns 1 exactly when `k` does not
exceed the budget: the failures all fall into the word loop, which repeats the
step. -/
theorem retry_iff_when_a_word_fits (W : Nat) (hW : 0 < W) (hw : Hw) (k : Nat)
    (hk : ∀ i, (hw i).ok = decide (k ≤ i)) (mem : Mem) (output size b : Nat)
    (hsize : W ≤ size) :
    ∃ r, ALL_RRI_GenerateBlock W hw mem output size b = some r ∧
      (r.rc = 1 ↔ k ≤ b) ∧ (r.rc = 0 ↔ b < k) := by
  obtain ⟨e, n, hp, hr⟩ := ALL_RRI_cases W hW hw mem output size b
  have h1 := hp.steps_eq
  have h3 := hp.size_eq
  simp only [Nat.zero_add] at h1 h3
  rw [okWords_failFirst_length hw k hk] at h3
  cases e with
  | ret0 o =>
    obtain ⟨-, r2⟩ := hp.on_ret0 o rfl
    simp only [Nat.zero_add] at r2
    rw [okWords_failFirst_length hw k hk] at r2
    refine ⟨_, hr, ?_, ?_⟩
    · simp only
      constructor
      · intro h; simp at h
      · intro h; omega
    · simp only [true_iff]
      omega
  | done o =>
    obtain ⟨d1, d2, -⟩ := hp.on_done o rfl
    simp only [LoopExit.locals, Nat.zero_add] at h1 h3 d2
    rw [okWords_failFirst_length hw k hk] at d2
    -- at least one word is in place, so the failures are over
    have hnk : k < n := by
      rcases Nat.lt_or_ge k n with h | h
      · exact h
      · rw [Nat.sub_eq_zero_of_le h] at h3; omega
    have hokn : (hw o.steps).ok = true := by rw [hk, h1]; simp; omega
    have hrc : (tailBlock hw o).rc = 1 := by
      by_cases hz : o.size = 0
      · rw [tailBlock_zero hw o hz]
      · rw [tailBlock_ok hw o hz hokn]
    refine ⟨_, hr, ?_, ?_⟩
    · simp only [hrc, true_iff]; omega
    · simp only [hrc]
      constructor
      · intro h; simp at h
      · intro h; omega

/-! ## The claims -/

/-- C1 (capability gating).  When `HasRDRAND()` is false, `RDRAND::GenerateBlock`
throws `NotImplemented`, executes no hardware step and leaves the memory as it
was, whatever the buffer, the size, the retry budget and the build; likewise
`RDSEED::GenerateBlock` when `HasRDSEED()` is false. -/
theorem capability_gating (b : Build) (cpuR cpuS : Cpu) (hw : Hw) (m_retries : Nat)
    (mem : Mem) (output size : Nat)
    (hR : HasRDRAND cpuR = false) (hS : HasRDSEED cpuS = false) :
    RDRAND.GenerateBlock b cpuR hw m_retries mem output size =
        some { thrown := some (.NotImplemented "RDRAND: rdrand is not available on this platform"),
               mem := mem, steps := 0 } ∧
      RDSEED.GenerateBlock b cpuS hw m_retries mem output size =
        some { thrown := some (.NotImplemented "RDSEED: rdseed is not available on this platform"),
               mem := mem, steps := 0 } := by
  constructor
  · simp [RDRAND.GenerateBlock, hR]
  · simp [RDSEED.GenerateBlock, hS]

/-- C2 (exactness on success).  For every word width, stream of step results,
size and retry budget the intrinsic fill returns, `ALL_RSI_GenerateBlock` as
`ALL_RRI_GenerateBlock`; when it returns 1 the successful steps number
`size / W`, plus one when `size % W ≠ 0`, the bytes `output[0 .. size)` are the
first `size` bytes of the concatenation of their words in order, and no byte
outside `output[0 .. size)` has changed. -/
theorem exactness_on_success (W : Nat) (hW : 0 < W) (hw : Hw) (mem : Mem)
    (output size safety : Nat) :
    ∃ r, ALL_RRI_GenerateBlock W hw mem output size safety = some r ∧
      ALL_RSI_GenerateBlock W hw mem output size safety = some r ∧
      (r.rc = 1 →
        (okWords hw 0 r.steps).length = size / W + (if size % W = 0 then 0 else 1) ∧
        readBytes r.mem output size = (concatWords W (okWords hw 0 r.steps)).take size ∧
        ∀ a, a < output ∨ output + size ≤ a → r.mem a = mem a) := by
  obtain ⟨e, n, hp, hr⟩ := ALL_RRI_cases W hW hw mem output size safety
  have h1 := hp.steps_eq
  have h2 := hp.output_eq
  have h3 := hp.size_eq
  have hc := hp.content
  have hlo := hp.frame_lo
  simp only [Nat.zero_add] at h1 h2 h3 hc hlo
  cases e with
  | ret0 o => exact ⟨_, hr, hr, fun h => by simp at h⟩
  | done o =>
    obtain ⟨d1, -, d3⟩ := hp.on_done o rfl
    simp only [LoopExit.locals] at h1 h2 h3 hc hlo d3
    refine ⟨_, hr, hr, ?_⟩
    simp only
    obtain ⟨q1, q2⟩ := div_mod_of_decomp W _ o.size size h3 d1
    by_cases hz : o.size = 0
    · rw [tailBlock_zero hw o hz]
      intro _
      simp only [h1]
      refine ⟨by rw [q1, q2, if_pos hz, Nat.add_zero], ?_, ?_⟩
      · apply readBytes_eq_take
        · rw [concatWords_length]; omega
        · intro i hi
          exact hc i (by omega)
      · intro a ha
        rcases ha with ha | ha
        · exact hlo a ha
        · exact d3 a (by omega)
    · by_cases hok : (hw o.steps).ok = true
      · rw [tailBlock_ok hw o hz hok]
        intro _
        have hws : okWords hw 0 (o.steps + 1) = okWords hw 0 n ++ [(hw o.steps).val] := by
          rw [h1, okWords_succ_last, Nat.zero_add, ← h1, if_pos hok]
        simp only [hws]
        refine ⟨by rw [List.length_append, q1, q2, if_neg hz]; rfl, ?_, ?_⟩
        · apply readBytes_eq_take
          · rw [concatWords_length, List.length_append, List.length_singleton, Nat.mul_succ]
            omega
          · intro i hi
            rw [concatWords_append]
            by_cases hiw : i < W * (okWords hw 0 n).length
            · rw [List.getD_append _ _ _ _ (by rw [concatWords_length]; exact hiw),
                memcpy_outside _ _ _ _ _ (Or.inl (by omega))]
              exact hc i hiw
            · rw [List.getD_append_right _ _ _ _ (by rw [concatWords_length]; omega),
                concatWords_length, concatWords_cons_getD, if_pos (by omega)]
              have ea : output + i = o.output + (i - W * (okWords hw 0 n).length) := by omega
              rw [ea]
              exact memcpy_inside _ _ _ _ _ (by omega)
        · intro a ha
          rcases ha with ha | ha
          · rw [memcpy_outside _ _ _ _ _ (Or.inl (by omega))]
            exact hlo a ha
          · rw [memcpy_outside _ _ _ _ _ (Or.inr (by omega))]
            exact d3 a (by omega)
      · intro h
        rw [(tailBlock_fail hw o hz hok).1] at h
        simp at h

theorem capability_gating_witness :
    RDRAND.GenerateBlock intrinsicBuild ⟨false, true⟩ sampleHw 8 sampleMem 100 11 =
        some { thrown := some (.NotImplemented "RDRAND: rdrand is not available on this platform"),
               mem := sampleMem, steps := 0 } ∧
      RDSEED.GenerateBlock intrinsicBuild ⟨true, false⟩ sampleHw 8 sampleMem 100 11 =
        some { thrown := some (.NotImplemented "RDSEED: rdseed is not available on this platform"),
               mem := sampleMem, steps := 0 } :=
  capability_gating intrinsicBuild ⟨false, true⟩ ⟨true, false⟩ sampleHw 8 sampleMem 100 11
    rfl rfl

theorem exactness_on_success_witness :
    (ALL_RRI_GenerateBlock 8 sampleHw sampleMem 100 11 2).map (fun r => r.rc) = some 1 ∧
    ∃ r, ALL_RRI_GenerateBlock 8 sampleHw sampleMem 100 11 2 = some r ∧
      ALL_RSI_GenerateBlock 8 sampleHw sampleMem 100 11 2 = some r ∧
      (r.rc = 1 →
        (okWords sampleHw 0 r.steps).length = 11 / 8 + (if 11 % 8 = 0 then 0 else 1) ∧
        readBytes r.mem 100 11 = (concatWords 8 (okWords sampleHw 0 r.steps)).take 11 ∧
        ∀ a, a < 100 ∨ 100 + 11 ≤ a → r.mem a = sampleMem a) :=
  ⟨by decide, exactness_on_success 8 (by decide) sampleHw sampleMem 100 11 2⟩

/-- C3 (retry termination), evaluated where it fails.  With the instruction
present, a budget of 8 and a stream whose first step alone fails (`k = 1 ≤ 8`),
a request for one byte makes `RDRAND::GenerateBlock` throw `RDRAND_Err`: the
step serving the trailing bytes is not repeated.  On the same input the
inline-assembly routine `GCC_RRA_GenerateBlock` does repeat it and returns 1. -/
theorem retry_termination_tail_fails :
    (RDRAND.GenerateBlock intrinsicBuild ⟨true, true⟩ (failFirst 1) 8 sampleMem 100 1).map
        (fun r => (r.thrown, r.steps)) =
      some (some (.RDRAND_Err "ALL_RRI_GenerateBlock"), 1) ∧
    (RDSEED.GenerateBlock intrinsicBuild ⟨true, true⟩ (failFirst 1) 8 sampleMem 100 1).map
        (fun r => (r.thrown, r.steps)) =
      some (some (.RDSEED_Err "ALL_RSI_GenerateBlock"), 1) ∧
    (GCC_RRA_GenerateBlock 8 (failFirst 1) sampleMem 100 1 8).map
        (fun r => (r.rc, r.steps)) = some (1, 2) := by
  refine ⟨?_, ?_, ?_⟩ <;> rfl

/-- C4 (the budget is consumed by failed steps only).  For a size `m * W` the
intrinsic fill returns, and it returns 1 exactly when some initial segment of
the step stream holds `m` successes and at most `b` failures, that is when at
most `b` failed steps come before the `m`-th successful one.  A stream without
failures therefore gives 1 for every budget, 0 included. -/
theorem budget_consumed_by_failures_only (W : Nat) (hW : 0 < W) (hw : Hw) (mem : Mem)
    (output m b : Nat) :
    ∃ r, ALL_RRI_GenerateBlock W hw mem output (m * W) b = some r ∧
      ALL_RSI_GenerateBlock W hw mem output (m * W) b = some r ∧
      (r.rc = 1 ↔
        ∃ t, (okWords hw 0 t).length = m ∧ t - (okWords hw 0 t).length ≤ b) ∧
      ((∀ i, (hw i).ok = true) → r.rc = 1) := by
  obtain ⟨e, n, hp, hr⟩ := ALL_RRI_cases W hW hw mem output (m * W) b
  have h1 := hp.steps_eq
  have h3 := hp.size_eq
  simp only [Nat.zero_add] at h1 h3
  have key : ∀ r : FillResult,
      (r.rc = 1 ↔ ∃ t, (okWords hw 0 t).length = m ∧ t - (okWords hw 0 t).length ≤ b) →
      ((r.rc = 1 ↔ ∃ t, (okWords hw 0 t).length = m ∧ t - (okWords hw 0 t).length ≤ b) ∧
        ((∀ i, (hw i).ok = true) → r.rc = 1)) := by
    intro r hiff
    refine ⟨hiff, fun hall => hiff.2 ⟨m, okWords_all_ok hw hall m 0, ?_⟩⟩
    rw [okWords_all_ok hw hall m 0]
    omega
  cases e with
  | ret0 o =>
    obtain ⟨r1, r2⟩ := hp.on_ret0 o rfl
    simp only [LoopExit.locals, Nat.zero_add] at h1 h3 r2
    refine ⟨_, hr, hr, key _ ?_⟩
    simp only
    constructor
    · intro h; simp at h
    · rintro ⟨t, ht1, ht2⟩
      exfalso
      -- fewer than `m` words are in place when the loop gives up
      have hjm : (okWords hw 0 n).length + 1 ≤ m := by
        apply Nat.le_of_mul_le_mul_left _ hW
        rw [Nat.mul_succ, Nat.mul_comm W m]
        omega
      rcases Nat.le_total t n with htn | htn
      · have := (okWords_mono hw 0 t (n - t)).1
        rw [Nat.add_sub_cancel' htn] at this
        omega
      · have := (okWords_mono hw 0 n (t - n)).2
        rw [Nat.add_sub_cancel' htn] at this
        omega
  | done o =>
    obtain ⟨d1, d2, -⟩ := hp.on_done o rfl
    simp only [LoopExit.locals, Nat.zero_add] at h1 h3 d2
    obtain ⟨q1, q2⟩ := div_mod_of_decomp W _ o.size (m * W) h3 d1
    rw [Nat.mul_div_cancel _ hW] at q1
    rw [Nat.mul_mod_left] at q2
    refine ⟨_, hr, hr, key _ ?_⟩
    simp only
    rw [tailBlock_zero hw o q2.symm]
    simp only [true_iff]
    exact ⟨n, q1.symm, by omega⟩

theorem budget_consumed_by_failures_only_witness :
    (ALL_RRI_GenerateBlock 8 sampleHw sampleMem 100 (2 * 8) 1).map (fun r => r.rc) = some 1 ∧
    ∃ r, ALL_RRI_GenerateBlock 8 sampleHw sampleMem 100 (2 * 8) 1 = some r ∧
      ALL_RSI_GenerateBlock 8 sampleHw sampleMem 100 (2 * 8) 1 = some r ∧
      (r.rc = 1 ↔
        ∃ t, (okWords sampleHw 0 t).length = 2 ∧ t - (okWords sampleHw 0 t).length ≤ 1) ∧
      ((∀ i, (sampleHw i).ok = true) → r.rc = 1) :=
  ⟨by decide, budget_consumed_by_failures_only 8 (by decide) sampleHw sampleMem 100 2 1⟩

/-- C5 (scratch zeroing), evaluated where it fails.  With a budget of 0 and a
first step that fails, a request for one word leaves `ALL_RRI_GenerateBlock` and
`ALL_RSI_GenerateBlock` through the `return 0` inside the loop: 0 is returned and
`val` has never been assigned, the zeroing statement is not reached.  The
inline-assembly routine leaves its loop with `break` and does zero `val`. -/
theorem scratch_not_zeroed_on_exhaustion :
    (ALL_RRI_GenerateBlock 8 (failFirst 1) sampleMem 100 8 0).map
        (fun r => (r.rc, r.val)) = some (0, none) ∧
    (ALL_RSI_GenerateBlock 8 (failFirst 1) sampleMem 100 8 0).map
        (fun r => (r.rc, r.val)) = some (0, none) ∧
    (GCC_RRA_GenerateBlock 8 (failFirst 1) sampleMem 100 8 0).map
        (fun r => (r.rc, r.val)) = some (0, some 0) := by
  refine ⟨?_, ?_, ?_⟩ <;> rfl

/-- C6 (canary frame).  The intrinsic fill returns, and whether it returns 1 or 0
every byte at an address below `output` or at or above `output + size` is what
it was before the call. -/
theorem canary_frame (W : Nat) (hW : 0 < W) (hw : Hw) (mem : Mem)
    (output size safety : Nat) :
    ∃ r, ALL_RRI_GenerateBlock W hw mem output size safety = some r ∧
      ALL_RSI_GenerateBlock W hw mem output size safety = some r ∧
      ∀ a, a < output ∨ output + size ≤ a → r.mem a = mem a := by
  obtain ⟨e, n, hp, hr⟩ := ALL_RRI_cases W hW hw mem output size safety
  have h2 := hp.output_eq
  have h3 := hp.size_eq
  have hlo := hp.frame_lo
  have hhi := hp.frame_hi
  simp only [Nat.zero_add] at h2 h3 hlo hhi
  cases e with
  | ret0 o =>
    obtain ⟨r1, -⟩ := hp.on_ret0 o rfl
    simp only [LoopExit.locals] at h2 h3 hlo hhi
    refine ⟨_, hr, hr, ?_⟩
    intro a ha
    rcases ha with ha | ha
    · exact hlo a ha
    · exact hhi a (by omega)
  | done o =>
    obtain ⟨-, -, d3⟩ := hp.on_done o rfl
    simp only [LoopExit.locals] at h2 h3 hlo d3
    refine ⟨_, hr, hr, ?_⟩
    have hbase : ∀ a, a < output ∨ output + size ≤ a → o.mem a = mem a := by
      intro a ha
      rcases ha with ha | ha
      · exact hlo a ha
      · exact d3 a (by omega)
    simp only
    by_cases hz : o.size = 0
    · rw [tailBlock_zero hw o hz]
      exact hbase
    · by_cases hok : (hw o.steps).ok = true
      · rw [tailBlock_ok hw o hz hok]
        intro a ha
        simp only
        rw [memcpy_outside _ _ _ _ _ (by omega)]
        exact hbase a ha
      · rw [(tailBlock_fail hw o hz hok).2.1]
        exact hbase

theorem canary_frame_witness :
    ∃ r, ALL_RRI_GenerateBlock 8 sampleHw sampleMem 100 11 2 = some r ∧
      ALL_RSI_GenerateBlock 8 sampleHw sampleMem 100 11 2 = some r ∧
      ∀ a, a < 100 ∨ 100 + 11 ≤ a → r.mem a = sampleMem a :=
  canary_frame 8 (by decide) sampleHw sampleMem 100 11 2

/-- C8 as stated fails when the instruction is absent: `GenerateBlock(null, 0)`
then throws `NotImplemented`. -/
theorem null_zero_throws_when_absent :
    (RDRAND.GenerateBlock intrinsicBuild ⟨false, true⟩ (failFirst 0) 8 sampleMem 0 0).map
        (fun r => r.thrown) =
      some (some (.NotImplemented "RDRAND: rdrand is not available on this platform")) ∧
    (RDSEED.GenerateBlock intrinsicBuild ⟨true, false⟩ (failFirst 0) 8 sampleMem 0 0).map
        (fun r => r.thrown) =
      some (some (.NotImplemented "RDSEED: rdseed is not available on this platform")) := by
  constructor <;> rfl

/-- C8 (null/zero no-op), amended.  When the probe reports the instruction
present and the build selects the intrinsic or the inline-assembly fill,
`GenerateBlock(null, 0)` returns without throwing, executes no hardware step and
leaves the memory as it was. -/
theorem null_zero_noop (b : Build) (cpuR cpuS : Cpu) (hw : Hw) (m_retries : Nat) (mem : Mem)
    (hWR : 0 < b.rdrandW) (hWS : 0 < b.rdseedW)
    (hR : HasRDRAND cpuR = true) (hS : HasRDSEED cpuS = true)
    (hiR : b.rdrandImpl = .ALL_INTRIN ∨ b.rdrandImpl = .GCC_ASM)
    (hiS : b.rdseedImpl = .ALL_INTRIN ∨ b.rdseedImpl = .GCC_ASM) :
    RDRAND.GenerateBlock b cpuR hw m_retries mem 0 0 =
        some { thrown := none, mem := mem, steps := 0 } ∧
      RDSEED.GenerateBlock b cpuS hw m_retries mem 0 0 =
        some { thrown := none, mem := mem, steps := 0 } := by
  have hnotR : ¬ b.rdrandW ≤ 0 := by omega
  have hnotS : ¬ b.rdseedW ≤ 0 := by omega
  constructor
  · rcases hiR with h | h
    · simp [RDRAND.GenerateBlock, hR, h, ALL_RRI_GenerateBlock, wordLoop, hnotR, tailBlock,
        throwIfZero]
    · simp [RDRAND.GenerateBlock, hR, h, GCC_RRA_GenerateBlock, asmLoop, throwIfZero]
  · rcases hiS with h | h
    · simp [RDSEED.GenerateBlock, hS, h, ALL_RSI_GenerateBlock, wordLoop, hnotS, tailBlock,
        throwIfZero]
    · simp [RDSEED.GenerateBlock, hS, h, GCC_RSA_GenerateBlock, asmLoop, throwIfZero]

theorem null_zero_noop_witness :
    RDRAND.GenerateBlock intrinsicBuild ⟨true, false⟩ sampleHw 8 sampleMem 0 0 =
        some { thrown := none, mem := sampleMem, steps := 0 } ∧
      RDSEED.GenerateBlock intrinsicBuild ⟨false, true⟩ sampleHw 8 sampleMem 0 0 =
        some { thrown := none, mem := sampleMem, steps := 0 } :=
  null_zero_noop intrinsicBuild ⟨true, false⟩ ⟨false, true⟩ sampleHw 8 sampleMem
    (by decide) (by decide) rfl rfl (Or.inl rfl) (Or.inl rfl)

/-- C9 (valid leading bytes on failure).  The intrinsic fill returns; when it
returns 0 after `j` successful steps, the bytes `output[0 .. j * W)` lie inside
the buffer and are the concatenation, in order, of the words of those steps. -/
theorem valid_leading_bytes_on_failure (W : Nat) (hW : 0 < W) (hw : Hw) (mem : Mem)
    (output size safety : Nat) :
    ∃ r, ALL_RRI_GenerateBlock W hw mem output size safety = some r ∧
      ALL_RSI_GenerateBlock W hw mem output size safety = some r ∧
      (r.rc = 0 →
        W * (okWords hw 0 r.steps).length ≤ size ∧
        readBytes r.mem output (W * (okWords hw 0 r.steps).length) =
          concatWords W (okWords hw 0 r.steps)) := by
  obtain ⟨e, n, hp, hr⟩ := ALL_RRI_cases W hW hw mem output size safety
  have h1 := hp.steps_eq
  have h3 := hp.size_eq
  have hc := hp.content
  simp only [Nat.zero_add] at h1 h3 hc
  have hread : readBytes e.locals.mem output (W * (okWords hw 0 n).length) =
      concatWords W (okWords hw 0 n) := by
    rw [readBytes_eq_take _ _ _ (concatWords W (okWords hw 0 n))
      (by rw [concatWords_length]) hc]
    apply List.take_of_length_le
    rw [concatWords_length]
  cases e with
  | ret0 o =>
    simp only [LoopExit.locals] at h1 h3 hread
    refine ⟨_, hr, hr, fun _ => ?_⟩
    simp only [h1]
    exact ⟨by omega, hread⟩
  | done o =>
    simp only [LoopExit.locals] at h1 h3 hread
    refine ⟨_, hr, hr, ?_⟩
    simp only
    by_cases hz : o.size = 0
    · rw [tailBlock_zero hw o hz]
      intro h; simp at h
    · by_cases hok : (hw o.steps).ok = true
      · rw [tailBlock_ok hw o hz hok]
        intro h; simp at h
      · obtain ⟨-, t2, t3, -⟩ := tailBlock_fail hw o hz hok
        intro _
        have hws : okWords hw 0 (o.steps + 1) = okWords hw 0 n := by
          rw [h1, okWords_succ_last, Nat.zero_add, ← h1, if_neg hok, List.append_nil]
        rw [t2, t3, hws]
        exact ⟨by omega, hread⟩

theorem valid_leading_bytes_on_failure_witness :
    (ALL_RRI_GenerateBlock 8 sampleHw sampleMem 100 27 1).map
        (fun r => (r.rc, r.steps, readBytes r.mem 100 16)) =
      some (0, 4, [2, 2, 3, 4, 5, 6, 7, 8, 3, 2, 3, 4, 5, 6, 7, 8]) ∧
    ∃ r, ALL_RRI_GenerateBlock 8 sampleHw sampleMem 100 27 1 = some r ∧
      ALL_RSI_GenerateBlock 8 sampleHw sampleMem 100 27 1 = some r ∧
      (r.rc = 0 →
        8 * (okWords sampleHw 0 r.steps).length ≤ 27 ∧
        readBytes r.mem 100 (8 * (okWords sampleHw 0 r.steps).length) =
          concatWords 8 (okWords sampleHw 0 r.steps)) :=
  ⟨by decide, valid_leading_bytes_on_failure 8 (by decide) sampleHw sampleMem 100 27 1⟩

/-- C10 (independent gating).  The outcome of `RDRAND::GenerateBlock` is the same
for two processors that agree on `HasRDRAND()`, whatever they say about
`HasRDSEED()`; the outcome of `RDSEED::GenerateBlock` is the same for two
processors that agree on `HasRDSEED()`, whatever they say about `HasRDRAND()`. -/
theorem independent_gating (b : Build) (hw : Hw) (m_retries : Nat) (mem : Mem)
    (output size : Nat) (c1 c2 d1 d2 : Cpu)
    (hR : HasRDRAND c1 = HasRDRAND c2) (hS : HasRDSEED d1 = HasRDSEED d2) :
    RDRAND.GenerateBlock b c1 hw m_retries mem output size =
        RDRAND.GenerateBlock b c2 hw m_retries mem output size ∧
      RDSEED.GenerateBlock b d1 hw m_retries mem output size =
        RDSEED.GenerateBlock b d2 hw m_retries mem output size := by
  constructor
  · unfold RDRAND.GenerateBlock
    rw [hR]
  · unfold RDSEED.GenerateBlock
    rw [hS]

theorem independent_gating_witness :
    RDRAND.GenerateBlock intrinsicBuild ⟨true, true⟩ sampleHw 8 sampleMem 100 11 =
        RDRAND.GenerateBlock intrinsicBuild ⟨true, false⟩ sampleHw 8 sampleMem 100 11 ∧
      RDSEED.GenerateBlock intrinsicBuild ⟨true, true⟩ sampleHw 8 sampleMem 100 11 =
        RDSEED.GenerateBlock intrinsicBuild ⟨false, true⟩ sampleHw 8 sampleMem 100 11 :=
  independent_gating intrinsicBuild sampleHw 8 sampleMem 100 11
    ⟨true, true⟩ ⟨true, false⟩ ⟨true, true⟩ ⟨false, true⟩ rfl rfl

/-- C11 as stated fails for `n = 0`: the rounded count is 0, the loop body is
never entered, `GenerateBlock` is not called and `DiscardBytes(0)` returns without
throwing although the instruction is absent. -/
theorem discard_zero_returns_when_absent :
    (RDRAND.DiscardBytes intrinsicBuild ⟨false, false⟩ sampleHw 8 sampleMem 1000 0).map
        (fun r => (r.thrown, r.requests, r.steps)) = some (none, [], 0) ∧
    (RDSEED.DiscardBytes intrinsicBuild ⟨false, false⟩ sampleHw 8 sampleMem 1000 0).map
        (fun r => (r.thrown, r.requests, r.steps)) = some (none, [], 0) := by
  constructor <;> rfl

/-- C11 (`DiscardBytes` without the instruction), amended.  For every `n > 0`
whose rounding fits `size_t`, when the probe reports the instruction absent
`DiscardBytes(n)` makes exactly one call of `GenerateBlock`, the first of its
loop, and ends with the `NotImplemented` exception of that call; no hardware
step is executed and the memory is unchanged. -/
theorem discard_unsupported (b : Build) (cpuR cpuS : Cpu) (hw : Hw) (m_retries : Nat)
    (mem : Mem) (discard n : Nat) (hn : 0 < n) (hW : 0 < b.discardWord)
    (hfit : n + b.discardWord - 1 ≤ b.SIZE_MAX)
    (hR : HasRDRAND cpuR = false) (hS : HasRDSEED cpuS = false) :
    RDRAND.DiscardBytes b cpuR hw m_retries mem discard n =
        some { thrown := some (.NotImplemented "RDRAND: rdrand is not available on this platform"),
               mem := mem, steps := 0,
               requests := [STDMIN ((n + b.discardWord - 1) / b.discardWord * b.discardWord)
                 (16 * b.discardWord)] } ∧
      RDSEED.DiscardBytes b cpuS hw m_retries mem discard n =
        some { thrown := some (.NotImplemented "RDSEED: rdseed is not available on this platform"),
               mem := mem, steps := 0,
               requests := [STDMIN ((n + b.discardWord - 1) / b.discardWord * b.discardWord)
                 (16 * b.discardWord)] } := by
  have hpos : 0 < (n + b.discardWord - 1) / b.discardWord * b.discardWord := by
    have := (roundUp_least b.discardWord n hW).1
    rw [Nat.mul_comm] at this
    omega
  have hcount : STDMIN ((n + b.discardWord - 1) / b.discardWord * b.discardWord)
      (16 * b.discardWord) ≠ 0 := by
    intro h
    have := STDMIN_eq_zero _ _ (by omega) h
    omega
  constructor
  · unfold RDRAND.DiscardBytes discardBody RoundUpToMultipleOf
    rw [if_pos hfit]
    simp only
    rw [discardLoop]
    simp [hcount, RDRAND.GenerateBlock, hR]
  · unfold RDSEED.DiscardBytes discardBody RoundUpToMultipleOf
    rw [if_pos hfit]
    simp only
    rw [discardLoop]
    simp [hcount, RDSEED.GenerateBlock, hS]

theorem discard_unsupported_witness :
    RDRAND.DiscardBytes intrinsicBuild ⟨false, true⟩ sampleHw 8 sampleMem 1000 200 =
        some { thrown := some (.NotImplemented "RDRAND: rdrand is not available on this platform"),
               mem := sampleMem, steps := 0,
               requests := [STDMIN ((200 + 8 - 1) / 8 * 8) (16 * 8)] } ∧
      RDSEED.DiscardBytes intrinsicBuild ⟨true, false⟩ sampleHw 8 sampleMem 1000 200 =
        some { thrown := some (.NotImplemented "RDSEED: rdseed is not available on this platform"),
               mem := sampleMem, steps := 0,
               requests := [STDMIN ((200 + 8 - 1) / 8 * 8) (16 * 8)] } :=
  discard_unsupported intrinsicBuild ⟨false, true⟩ ⟨true, false⟩ sampleHw 8 sampleMem 1000 200
    (by decide) (by decide) (by decide) rfl rfl

/-- C12 (null/zero pairing).  The asserted condition
`(output && size) || !(output || size)` is true exactly when the pointer is
non-null and the size positive, or the pointer null and the size zero; it is
false for a null pointer with a positive size and for a non-null pointer with
size zero. -/
theorem pairingAssert_iff (output size : Nat) :
    (pairingAssert output size = true ↔
      (output ≠ 0 ∧ 0 < size) ∨ (output = 0 ∧ size = 0)) ∧
    pairingAssert 0 (size + 1) = false ∧
    pairingAssert (output + 1) 0 = false := by
  refine ⟨?_, ?_, ?_⟩
  · rcases Nat.eq_zero_or_pos output with ho | ho <;>
      rcases Nat.eq_zero_or_pos size with hs | hs
    · simp [pairingAssert, ho, hs]
    · have : size ≠ 0 := by omega
      simp [pairingAssert, ho, this]
    · have : output ≠ 0 := by omega
      simp [pairingAssert, hs, this]
    · have h1 : output ≠ 0 := by omega
      have h2 : size ≠ 0 := by omega
      simp [pairingAssert, h1, h2, hs]
  · simp [pairingAssert]
  · simp [pairingAssert]

/-- The loop of the inline-assembly routines always comes to an end within
`size + safety + 1` iterations and then satisfies `AsmPost`. -/
theorem asmLoop_spec (W : Nat) (hW : 0 < W) (hw : Hw) : ∀ (fuel : Nat) (s : Locals),
    s.size + s.safety < fuel →
      ∃ o n, asmLoop W hw fuel s = some o ∧ AsmPost W hw s o n := by
  intro fuel
  induction fuel with
  | zero => intro s h; omega
  | succ fuel ih =>
    intro s hfuel
    by_cases hz : s.size = 0
    · -- nothing left to do
      refine ⟨s, 0, ?_, ?_⟩
      · rw [asmLoop]; simp [hz]
      · constructor
        · rfl
        · intro a _; rfl
        · intro i hi; simp [okWords] at hi
        · intro _; simp [okWords, hz]; exact hW
        · intro h; exact absurd hz h
    · by_cases hok : (hw s.steps).ok = true
      · by_cases hsz : W ≤ s.size
        · -- a whole word is stored and the loop goes on behind it
          obtain ⟨o, n, ho, hp⟩ := ih
            { mem := memcpy s.mem s.output (hw s.steps).val W, output := s.output + W,
              size := s.size - W, safety := s.safety, steps := s.steps + 1 }
            (by simp only; omega)
          refine ⟨o, n + 1, ?_, ?_⟩
          · rw [asmLoop]; simp only [hz, hok, hsz, if_true, ne_eq, not_false_eq_true]
            exact ho
          · have hw1 : okWords hw s.steps (n + 1)
                = (hw s.steps).val :: okWords hw (s.steps + 1) n := by
              simp [okWords, hok]
            have h1 := hp.steps_eq
            have hfr := hp.frame
            have hc := hp.content
            have hf := hp.on_filled
            have hb := hp.on_break
            simp only at h1 hfr hc hf hb
            constructor
            · omega
            · intro a ha
              rw [hfr a (by omega)]
              exact memcpy_outside _ _ _ _ _ (by omega)
            · intro i hi hi2
              rw [hw1, concatWords_cons_getD]
              rw [hw1, List.length_cons, Nat.mul_succ] at hi
              by_cases hiW : i < W
              · rw [if_pos hiW, hfr (s.output + i) (by omega)]
                exact memcpy_inside _ _ _ _ _ hiW
              · rw [if_neg hiW, ← hc (i - W) (by omega) (by omega)]
                congr 1
                omega
            · intro h0
              obtain ⟨f1, f2, f3⟩ := hf h0
              rw [hw1, List.length_cons, Nat.mul_succ]
              omega
            · intro h0
              obtain ⟨b1, b2, b3⟩ := hb h0
              rw [hw1, List.length_cons, Nat.mul_succ]
              refine ⟨by omega, by omega, ?_⟩
              intro a ha
              rw [b3 a (by omega)]
              exact memcpy_outside _ _ _ _ _ (by omega)
        · -- the trailing bytes are stored; the next test of the loop ends it
          cases fuel with
          | zero => omega
          | succ fuel =>
            refine ⟨{ s with mem := memcpy s.mem s.output (hw s.steps).val s.size, size := 0,
                             steps := s.steps + 1 }, 1, ?_, ?_⟩
            · rw [asmLoop]; simp only [hz, hok, hsz, if_true, if_false, ne_eq, not_false_eq_true]
              rw [asmLoop]; simp
            · have hw1 : okWords hw s.steps 1 = [(hw s.steps).val] := by
                simp [okWords, hok]
              constructor
              · rfl
              · intro a ha
                exact memcpy_outside _ _ _ _ _ (by omega)
              · intro i _ hi2
                rw [hw1, concatWords_cons_getD, if_pos (by omega)]
                exact memcpy_inside _ _ _ _ _ hi2
              · intro _
                rw [hw1]
                simp only [List.length_singleton, Nat.mul_one]
                exact ⟨by omega, by omega, trivial⟩
              · intro h; simp at h
      · by_cases hsaf : s.safety = 0
        · -- a failed step with the budget used up: `break`
          refine ⟨{ s with safety := UINT_MAX, steps := s.steps + 1 }, 1, ?_, ?_⟩
          · rw [asmLoop]; simp [hz, hok, hsaf]
          · have hw1 : okWords hw s.steps 1 = [] := by simp [okWords, hok]
            constructor
            · rfl
            · intro a _; rfl
            · intro i hi; rw [hw1] at hi; simp at hi
            · intro h; exact absurd h hz
            · intro _
              rw [hw1]
              refine ⟨by simp, by simp [hsaf], fun a _ => rfl⟩
        · -- a failed step that is tolerated
          obtain ⟨o, n, ho, hp⟩ := ih
            { s with safety := s.safety - 1, steps := s.steps + 1 }
            (by simp only; omega)
          refine ⟨o, n + 1, ?_, ?_⟩
          · rw [asmLoop]; simp only [hz, hok, hsaf, if_false, ne_eq, not_false_eq_true, if_true]
            exact ho
          · have hw1 : okWords hw s.steps (n + 1) = okWords hw (s.steps + 1) n := by
              simp [okWords, hok]
            have h1 := hp.steps_eq
            have hfr := hp.frame
            have hc := hp.content
            have hf := hp.on_filled
            have hb := hp.on_break
            simp only at h1 hfr hc hf hb
            constructor
            · omega
            · exact hfr
            · rw [hw1]; exact hc
            · intro h0
              obtain ⟨f1, f2, f3⟩ := hf h0
              rw [hw1]
              omega
            · intro h0
              obtain ⟨b1, b2, b3⟩ := hb h0
              rw [hw1]
              exact ⟨b1, by omega, b3⟩

/-- The shape of every run of the inline-assembly routine. -/
theorem GCC_RRA_cases (W : Nat) (hW : 0 < W) (hw : Hw) (mem : Mem)
    (output size safety : Nat) :
    ∃ o n,
      AsmPost W hw
        { mem := mem, output := output, size := size, safety := safety, steps := 0 } o n ∧
      GCC_RRA_GenerateBlock W hw mem output size safety =
        some { rc := if o.size = 0 then 1 else 0, mem := o.mem, steps := o.steps,
               val := some 0 } := by
  obtain ⟨o, n, ho, hp⟩ := asmLoop_spec W hW hw (size + safety + 1)
    { mem := mem, output := output, size := size, safety := safety, steps := 0 }
    (by simp only; omega)
  refine ⟨o, n, hp, ?_⟩
  unfold GCC_RRA_GenerateBlock
  rw [ho]

theorem GCC_RSA_eq_GCC_RRA : GCC_RSA_GenerateBlock = GCC_RRA_GenerateBlock := rfl

theorem okWords_add (hw : Hw) (t n d : Nat) :
    okWords hw t (n + d) = okWords hw t n ++ okWords hw (t + n) d := by
  induction d with
  | zero => simp [okWords]
  | succ d ih =>
    have e : n + (d + 1) = (n + d) + 1 := by omega
    rw [e, okWords_succ_last, ih, okWords_succ_last hw d (t + n), List.append_assoc]
    have e2 : t + n + d = t + (n + d) := by omega
    rw [e2]

/-- Two initial segments of the stream with equally many successes deliver the
same words. -/
theorem okWords_eq_of_length_eq (hw : Hw) (n1 n2 : Nat)
    (h : (okWords hw 0 n1).length = (okWords hw 0 n2).length) :
    okWords hw 0 n1 = okWords hw 0 n2 := by
  rcases Nat.le_total n1 n2 with hle | hle
  · obtain ⟨d, rfl⟩ := Nat.exists_eq_add_of_le hle
    rw [okWords_add] at h ⊢
    rw [List.length_append] at h
    have : okWords hw (0 + n1) d = [] := List.eq_nil_of_length_eq_zero (by omega)
    rw [this, List.append_nil]
  · obtain ⟨d, rfl⟩ := Nat.exists_eq_add_of_le hle
    rw [okWords_add] at h ⊢
    rw [List.length_append] at h
    have : okWords hw (0 + n2) d = [] := List.eq_nil_of_length_eq_zero (by omega)
    rw [this, List.append_nil]

/-- Comparison of two initial segments of the stream: the longer one has at least
as many successes and at least as many failures. -/
theorem okWords_compare (hw : Hw) (n1 n2 : Nat) :
    (n1 ≤ n2 ∧ (okWords hw 0 n1).length ≤ (okWords hw 0 n2).length ∧
        n1 - (okWords hw 0 n1).length ≤ n2 - (okWords hw 0 n2).length) ∨
      (n2 ≤ n1 ∧ (okWords hw 0 n2).length ≤ (okWords hw 0 n1).length ∧
        n2 - (okWords hw 0 n2).length ≤ n1 - (okWords hw 0 n1).length) := by
  rcases Nat.le_total n1 n2 with hle | hle
  · left
    have := okWords_mono hw 0 n1 (n2 - n1)
    rw [Nat.add_sub_cancel' hle] at this
    exact ⟨hle, this⟩
  · right
    have := okWords_mono hw 0 n2 (n1 - n2)
    rw [Nat.add_sub_cancel' hle] at this
    exact ⟨hle, this⟩

/-- The three ways in which the intrinsic routine ends: with all bytes in place,
given up inside the word loop, or with a failed step for the trailing bytes. -/
theorem intrinsic_outcome (W : Nat) (hW : 0 < W) (hw : Hw) (mem : Mem)
    (output size safety : Nat) :
    ∃ r, ALL_RRI_GenerateBlock W hw mem output size safety = some r ∧
      ((r.rc = 1 ∧ size ≤ W * (okWords hw 0 r.steps).length ∧
          W * (okWords hw 0 r.steps).length < size + W ∧
          r.steps ≤ (okWords hw 0 r.steps).length + safety ∧
          ∀ i, i < size →
            r.mem (output + i) = (concatWords W (okWords hw 0 r.steps)).getD i 0) ∨
       (r.rc = 0 ∧ W * (okWords hw 0 r.steps).length + W ≤ size ∧
          r.steps = (okWords hw 0 r.steps).length + safety + 1) ∨
       (r.rc = 0 ∧ size < W * (okWords hw 0 r.steps).length + W ∧
          W * (okWords hw 0 r.steps).length < size ∧
          r.steps ≤ (okWords hw 0 r.steps).length + safety + 1)) := by
  obtain ⟨e, n, hp, hr⟩ := ALL_RRI_cases W hW hw mem output size safety
  have h1 := hp.steps_eq
  have h2 := hp.output_eq
  have h3 := hp.size_eq
  have hc := hp.content
  simp only [Nat.zero_add] at h1 h2 h3 hc
  cases e with
  | ret0 o =>
    obtain ⟨r1, r2⟩ := hp.on_ret0 o rfl
    simp only [LoopExit.locals, Nat.zero_add] at h1 h3 r2
    refine ⟨_, hr, Or.inr (Or.inl ?_)⟩
    simp only [h1]
    exact ⟨trivial, by omega, r2⟩
  | done o =>
    obtain ⟨d1, d2, -⟩ := hp.on_done o rfl
    simp only [LoopExit.locals, Nat.zero_add] at h1 h2 h3 hc d2
    refine ⟨_, hr, ?_⟩
    simp only
    by_cases hz : o.size = 0
    · rw [tailBlock_zero hw o hz]
      left
      simp only [h1]
      exact ⟨trivial, by omega, by omega, by omega, fun i hi => hc i (by omega)⟩
    · by_cases hok : (hw o.steps).ok = true
      · rw [tailBlock_ok hw o hz hok]
        left
        have hws : okWords hw 0 (o.steps + 1) = okWords hw 0 n ++ [(hw o.steps).val] := by
          rw [h1, okWords_succ_last, Nat.zero_add, ← h1, if_pos hok]
        simp only [hws, List.length_append, List.length_singleton, Nat.mul_succ]
        refine ⟨trivial, by omega, by omega, by omega, ?_⟩
        intro i hi
        rw [concatWords_append]
        by_cases hiw : i < W * (okWords hw 0 n).length
        · rw [List.getD_append _ _ _ _ (by rw [concatWords_length]; exact hiw),
            memcpy_outside _ _ _ _ _ (Or.inl (by omega))]
          exact hc i hiw
        · rw [List.getD_append_right _ _ _ _ (by rw [concatWords_length]; omega),
            concatWords_length, concatWords_cons_getD, if_pos (by omega)]
          have ea : output + i = o.output + (i - W * (okWords hw 0 n).length) := by omega
          rw [ea]
          exact memcpy_inside _ _ _ _ _ (by omega)
      · obtain ⟨t1, -, t3, -⟩ := tailBlock_fail hw o hz hok
        right; right
        have hws : okWords hw 0 (o.steps + 1) = okWords hw 0 n := by
          rw [h1, okWords_succ_last, Nat.zero_add, ← h1, if_neg hok, List.append_nil]
        rw [t1, t3, hws]
        exact ⟨rfl, by omega, by omega, by omega⟩

theorem lt_of_mul_lt (W a b : Nat) (h : W * a < W * b) : a < b :=
  Nat.lt_of_mul_lt_mul_left h

theorem size_lt_next_multiple (W size : Nat) (hW : 0 < W) : size < W * (size / W + 1) := by
  have := Nat.div_add_mod size W
  have := Nat.mod_lt size hW
  rw [Nat.mul_succ]
  omega

theorem readBytes_congr (m1 m2 : Mem) (a n : Nat) (h : ∀ i, i < n → m1 (a + i) = m2 (a + i)) :
    readBytes m1 a n = readBytes m2 a n := by
  unfold readBytes
  apply List.map_congr_left
  intro i hi
  exact h i (List.mem_range.1 hi)

/-- C13 as stated fails.  For a request of one byte, a budget of 8 and a stream
whose first step alone fails, the intrinsic routine returns 0 and the
inline-assembly routine returns 1.  For a request of one word with budget 0 and a
failing first step both return 0, but the intrinsic routine has handed `output`
to the step and the bytes there are the ones the failed step left, while the
inline-assembly routine has not touched them. -/
theorem strategies_differ :
    (ALL_RRI_GenerateBlock 8 (failFirst 1) sampleMem 100 1 8).map (fun r => r.rc) = some 0 ∧
    (GCC_RRA_GenerateBlock 8 (failFirst 1) sampleMem 100 1 8).map (fun r => r.rc) = some 1 ∧
    (ALL_RRI_GenerateBlock 8 (failFirst 1) sampleMem 100 8 0).map
        (fun r => (r.rc, readBytes r.mem 100 8)) = some (0, [0, 0, 0, 0, 0, 0, 0, 0]) ∧
    (GCC_RRA_GenerateBlock 8 (failFirst 1) sampleMem 100 8 0).map
        (fun r => (r.rc, readBytes r.mem 100 8)) =
      some (0, [0xEE, 0xEE, 0xEE, 0xEE, 0xEE, 0xEE, 0xEE, 0xEE]) := by
  refine ⟨?_, ?_, ?_, ?_⟩ <;> decide

/-- C13 (strategy equivalence), amended.  On the same inputs both routines
return; whenever the intrinsic routine returns 1 the inline-assembly routine
returns 1 as well and leaves the same bytes in `output[0 .. size)`, and for a
size that is a multiple of `W` the two return the same value. -/
theorem strategies_agree (W : Nat) (hW : 0 < W) (hw : Hw) (mem : Mem)
    (output size safety : Nat) :
    ∃ r g, ALL_RRI_GenerateBlock W hw mem output size safety = some r ∧
      GCC_RRA_GenerateBlock W hw mem output size safety = some g ∧
      ALL_RSI_GenerateBlock W hw mem output size safety = some r ∧
      GCC_RSA_GenerateBlock W hw mem output size safety = some g ∧
      (r.rc = 1 → g.rc = 1 ∧ readBytes g.mem output size = readBytes r.mem output size) ∧
      (size % W = 0 → g.rc = r.rc) := by
  obtain ⟨r, hr, hout⟩ := intrinsic_outcome W hW hw mem output size safety
  obtain ⟨o, n, hq, hg⟩ := GCC_RRA_cases W hW hw mem output size safety
  have q1 := hq.steps_eq
  have qc := hq.content
  have qf := hq.on_filled
  have qb := hq.on_break
  simp only [Nat.zero_add] at q1 qc qf qb
  have hcmp := okWords_compare hw n r.steps
  refine ⟨r, _, hr, hg, hr, hg, ?_, ?_⟩
  · -- the intrinsic routine has all bytes in place
    intro hrc
    rcases hout with ⟨-, s1, s2, s3, s4⟩ | ⟨h0, -⟩ | ⟨h0, -⟩
    · have hfilled : o.size = 0 := by
        by_contra hne
        obtain ⟨b1, b2, -⟩ := qb hne
        have : (okWords hw 0 n).length < (okWords hw 0 r.steps).length :=
          lt_of_mul_lt W _ _ (by omega)
        omega
      obtain ⟨f1, f2, -⟩ := qf hfilled
      have hlen : (okWords hw 0 n).length = (okWords hw 0 r.steps).length := by
        have a1 : (okWords hw 0 n).length < (okWords hw 0 r.steps).length + 1 :=
          lt_of_mul_lt W _ _ (by rw [Nat.mul_succ]; omega)
        have a2 : (okWords hw 0 r.steps).length < (okWords hw 0 n).length + 1 :=
          lt_of_mul_lt W _ _ (by rw [Nat.mul_succ]; omega)
        omega
      have hwords := okWords_eq_of_length_eq hw n r.steps hlen
      refine ⟨by simp [hfilled], ?_⟩
      apply readBytes_congr
      intro i hi
      simp only
      rw [qc i (by omega) hi, s4 i hi, hwords]
    · rw [h0] at hrc; simp at hrc
    · rw [h0] at hrc; simp at hrc
  · -- no trailing bytes: giving up happens in the word loop of either routine
    intro hmod
    obtain ⟨m, hm⟩ := Nat.dvd_of_mod_eq_zero hmod
    rcases hout with ⟨h1, s1, s2, s3, -⟩ | ⟨h0, s1, s2⟩ | ⟨h0, s1, s2, -⟩
    · have hfilled : o.size = 0 := by
        by_contra hne
        obtain ⟨b1, b2, -⟩ := qb hne
        have : (okWords hw 0 n).length < (okWords hw 0 r.steps).length :=
          lt_of_mul_lt W _ _ (by omega)
        omega
      simp [hfilled, h1]
    · have hbreak : o.size ≠ 0 := by
        intro hfilled
        obtain ⟨f1, f2, f3⟩ := qf hfilled
        have : (okWords hw 0 r.steps).length < (okWords hw 0 n).length :=
          lt_of_mul_lt W _ _ (by omega)
        omega
      simp [hbreak, h0]
    · exfalso
      rw [hm] at s1 s2
      have a1 : m < (okWords hw 0 r.steps).length + 1 :=
        lt_of_mul_lt W _ _ (by rw [Nat.mul_succ]; omega)
      have a2 : (okWords hw 0 r.steps).length < m := lt_of_mul_lt W _ _ s2
      omega

theorem strategies_agree_witness :
    (ALL_RRI_GenerateBlock 8 sampleHw sampleMem 100 11 2).map (fun r => r.rc) = some 1 ∧
    ∃ r g, ALL_RRI_GenerateBlock 8 sampleHw sampleMem 100 11 2 = some r ∧
      GCC_RRA_GenerateBlock 8 sampleHw sampleMem 100 11 2 = some g ∧
      ALL_RSI_GenerateBlock 8 sampleHw sampleMem 100 11 2 = some r ∧
      GCC_RSA_GenerateBlock 8 sampleHw sampleMem 100 11 2 = some g ∧
      (r.rc = 1 → g.rc = 1 ∧ readBytes g.mem 100 11 = readBytes r.mem 100 11) ∧
      (11 % 8 = 0 → g.rc = r.rc) :=
  ⟨by decide, strategies_agree 8 (by decide) sampleHw sampleMem 100 11 2⟩

/-- C14 as stated fails.  In `sampleHw` every third step fails, so no run of
failures is longer than 1; with a budget of 1 and a request for three words the
steps are fail, success, success, fail, and the second failure finds the budget
used up: the routines return 0 after four steps. -/
theorem budget_not_restored_by_success :
    (ALL_RRI_GenerateBlock 8 sampleHw sampleMem 100 (3 * 8) 1).map
        (fun r => (r.rc, r.steps)) = some (0, 4) ∧
    (ALL_RSI_GenerateBlock 8 sampleHw sampleMem 100 (3 * 8) 1).map
        (fun r => (r.rc, r.steps)) = some (0, 4) ∧
    (GCC_RRA_GenerateBlock 8 sampleHw sampleMem 100 (3 * 8) 1).map
        (fun r => (r.rc, r.steps)) = some (0, 4) := by
  refine ⟨?_, ?_, ?_⟩ <;> decide

/-- C14 (what the budget bounds), amended.  For a size `m * W` the intrinsic fill
returns 1 whenever at most `b` failed steps, consecutive or not, come before the
`m`-th successful one; when it returns 0, the steps it has executed hold
`b + 1` failures and fewer than `m` successes. -/
theorem budget_bounds_total_failures (W : Nat) (hW : 0 < W) (hw : Hw) (mem : Mem)
    (output m b : Nat) :
    ∃ r, ALL_RRI_GenerateBlock W hw mem output (m * W) b = some r ∧
      ALL_RSI_GenerateBlock W hw mem output (m * W) b = some r ∧
      ((∃ t, (okWords hw 0 t).length = m ∧ t - (okWords hw 0 t).length ≤ b) → r.rc = 1) ∧
      (r.rc = 0 →
        r.steps - (okWords hw 0 r.steps).length = b + 1 ∧
          (okWords hw 0 r.steps).length < m) := by
  obtain ⟨r, hr, hout⟩ := intrinsic_outcome W hW hw mem output (m * W) b
  refine ⟨r, hr, hr, ?_, ?_⟩
  · rintro ⟨t, ht1, ht2⟩
    have hcmp := okWords_compare hw t r.steps
    rcases hout with ⟨h1, -⟩ | ⟨-, s1, s2⟩ | ⟨-, s1, s2, -⟩
    · exact h1
    · exfalso
      have : (okWords hw 0 r.steps).length < m :=
        lt_of_mul_lt W _ _ (by rw [Nat.mul_comm W m]; omega)
      omega
    · exfalso
      rw [Nat.mul_comm m W] at s1 s2
      have a1 : m < (okWords hw 0 r.steps).length + 1 :=
        lt_of_mul_lt W _ _ (by rw [Nat.mul_succ]; omega)
      have a2 : (okWords hw 0 r.steps).length < m := lt_of_mul_lt W _ _ s2
      omega
  · intro h0
    rcases hout with ⟨h1, -⟩ | ⟨-, s1, s2⟩ | ⟨-, s1, s2, -⟩
    · rw [h0] at h1; simp at h1
    · have : (okWords hw 0 r.steps).length < m :=
        lt_of_mul_lt W _ _ (by rw [Nat.mul_comm W m]; omega)
      exact ⟨by omega, this⟩
    · exfalso
      rw [Nat.mul_comm m W] at s1 s2
      have a1 : m < (okWords hw 0 r.steps).length + 1 :=
        lt_of_mul_lt W _ _ (by rw [Nat.mul_succ]; omega)
      have a2 : (okWords hw 0 r.steps).length < m := lt_of_mul_lt W _ _ s2
      omega

theorem budget_bounds_total_failures_witness :
    ∃ r, ALL_RRI_GenerateBlock 8 sampleHw sampleMem 100 (3 * 8) 1 = some r ∧
      ALL_RSI_GenerateBlock 8 sampleHw sampleMem 100 (3 * 8) 1 = some r ∧
      ((∃ t, (okWords sampleHw 0 t).length = 3 ∧ t - (okWords sampleHw 0 t).length ≤ 1) →
        r.rc = 1) ∧
      (r.rc = 0 →
        r.steps - (okWords sampleHw 0 r.steps).length = 1 + 1 ∧
          (okWords sampleHw 0 r.steps).length < 3) :=
  budget_bounds_total_failures 8 (by decide) sampleHw sampleMem 100 3 1

/-- C15 (bounded work).  For every size, budget and stream of step results,
however many of them fail, the intrinsic fill returns after at most
`size / W + b + 1` hardware steps and the inline-assembly fill after at most
`(size + W - 1) / W + b + 1`. -/
theorem bounded_work (W : Nat) (hW : 0 < W) (hw : Hw) (mem : Mem) (output size b : Nat) :
    ∃ r g, ALL_RRI_GenerateBlock W hw mem output size b = some r ∧
      ALL_RSI_GenerateBlock W hw mem output size b = some r ∧
      GCC_RRA_GenerateBlock W hw mem output size b = some g ∧
      GCC_RSA_GenerateBlock W hw mem output size b = some g ∧
      r.steps ≤ size / W + b + 1 ∧
      g.steps ≤ (size + W - 1) / W + b + 1 := by
  obtain ⟨r, hr, hout⟩ := intrinsic_outcome W hW hw mem output size b
  obtain ⟨o, n, hq, hg⟩ := GCC_RRA_cases W hW hw mem output size b
  have q1 := hq.steps_eq
  have qf := hq.on_filled
  have qb := hq.on_break
  simp only [Nat.zero_add] at q1 qf qb
  have hnext := size_lt_next_multiple W size hW
  refine ⟨r, _, hr, hr, hg, hg, ?_, ?_⟩
  · rcases hout with ⟨-, s1, s2, s3, -⟩ | ⟨-, s1, s2⟩ | ⟨-, s1, s2, s3⟩
    · have : (okWords hw 0 r.steps).length < size / W + 1 + 1 :=
        lt_of_mul_lt W _ _ (by rw [Nat.mul_succ W (size / W + 1)]; omega)
      omega
    · have : (okWords hw 0 r.steps).length < size / W + 1 :=
        lt_of_mul_lt W _ _ (by omega)
      omega
    · have : (okWords hw 0 r.steps).length < size / W + 1 :=
        lt_of_mul_lt W _ _ (by omega)
      omega
  · simp only
    by_cases hz : o.size = 0
    · obtain ⟨f1, f2, f3⟩ := qf hz
      have : (okWords hw 0 n).length ≤ (size + W - 1) / W := by
        rw [Nat.le_div_iff_mul_le hW, Nat.mul_comm]
        omega
      omega
    · obtain ⟨b1, b2, -⟩ := qb hz
      have : (okWords hw 0 n).length + 1 ≤ (size + W - 1) / W := by
        rw [Nat.le_div_iff_mul_le hW, Nat.mul_comm, Nat.mul_succ]
        omega
      omega

theorem bounded_work_witness :
    ∃ r g, ALL_RRI_GenerateBlock 8 (failFirst 1000) sampleMem 100 27 3 = some r ∧
      ALL_RSI_GenerateBlock 8 (failFirst 1000) sampleMem 100 27 3 = some r ∧
      GCC_RRA_GenerateBlock 8 (failFirst 1000) sampleMem 100 27 3 = some g ∧
      GCC_RSA_GenerateBlock 8 (failFirst 1000) sampleMem 100 27 3 = some g ∧
      r.steps ≤ 27 / 8 + 3 + 1 ∧
      g.steps ≤ (27 + 8 - 1) / 8 + 3 + 1 :=
  bounded_work 8 (by decide) (failFirst 1000) sampleMem 100 27 3

theorem chunks_zero (C : Nat) : chunks 0 C = [] := by
  simp [chunks]

/-- The first chunk is what the loop requests first, the others are the chunks of
what remains. -/
theorem chunks_step (n C : Nat) (hC : 0 < C) (hn : n ≠ 0) :
    chunks n C = STDMIN n C :: chunks (n - STDMIN n C) C := by
  unfold STDMIN
  by_cases h : C < n
  · rw [if_pos h]
    unfold chunks
    have hd : n / C = (n - C) / C + 1 := by
      rw [Nat.div_eq n C, if_pos ⟨hC, by omega⟩]
    have hm : n % C = (n - C) % C := Nat.mod_eq_sub_mod (by omega)
    rw [hd, hm, List.replicate_succ, List.cons_append]
  · rw [if_neg h, Nat.sub_self, chunks_zero]
    unfold chunks
    rcases Nat.lt_or_ge n C with hlt | hge
    · rw [Nat.div_eq_of_lt hlt, Nat.mod_eq_of_lt hlt, if_neg hn]
      rfl
    · have hnC : n = C := by omega
      subst hnC
      rw [Nat.div_self hC, Nat.mod_self]
      rfl

theorem chunks_mem (W q k : Nat) (hW : 0 < W) (hq : q ∈ chunks (W * k) (16 * W)) :
    0 < q ∧ q ≤ 16 * W ∧ W ∣ q := by
  unfold chunks at hq
  rcases List.mem_append.1 hq with h | h
  · have := (List.mem_replicate.1 h).2
    subst this
    exact ⟨by omega, Nat.le_refl _, Dvd.intro_left 16 rfl⟩
  · by_cases hm : W * k % (16 * W) = 0
    · rw [if_pos hm] at h; simp at h
    · rw [if_neg hm] at h
      have hq' : q = W * k % (16 * W) := by simpa using h
      subst hq'
      refine ⟨Nat.pos_of_ne_zero hm, Nat.le_of_lt (Nat.mod_lt _ (by omega)), ?_⟩
      exact (Nat.dvd_mod_iff (Dvd.intro_left 16 rfl)).2 (Dvd.intro k rfl)

theorem chunks_sum (R C : Nat) : (chunks R C).sum = R := by
  unfold chunks
  have := Nat.div_add_mod R C
  by_cases h : R % C = 0
  · rw [if_pos h, List.append_nil, List.sum_replicate, smul_eq_mul, Nat.mul_comm]
    omega
  · rw [if_neg h, List.sum_append, List.sum_replicate, smul_eq_mul, Nat.mul_comm]
    simp only [List.sum_cons, List.sum_nil]
    omega

/-- The loop of `DiscardBytes` is the sequence of calls of `GenerateBlock` for the
chunks of `n`. -/
theorem discardLoop_eq_calls (gen : Hw → Mem → Nat → Option GenResult) (cap : Nat) (hw : Hw)
    (hcap : 0 < cap) : ∀ (fuel : Nat) (s : DiscardState),
    s.n < fuel → s.count = STDMIN s.n cap →
      discardLoop gen cap hw fuel s =
        callsInOrder gen hw (chunks s.n cap)
          { thrown := none, mem := s.mem, steps := s.steps, requests := s.requests } := by
  intro fuel
  induction fuel with
  | zero => intro s h; omega
  | succ fuel ih =>
    intro s hfuel hcount
    by_cases hc : s.count = 0
    · have hn := STDMIN_eq_zero s.n cap hcap (by rw [← hcount]; exact hc)
      rw [discardLoop, hn, chunks_zero]
      simp [hc, callsInOrder]
    · have hle : s.count ≤ s.n := by rw [hcount]; exact STDMIN_le_left _ _
      have hn : s.n ≠ 0 := by omega
      have hch := chunks_step s.n cap hcap hn
      rw [← hcount] at hch
      rw [discardLoop, hch, callsInOrder]
      simp only [hc, ne_eq, not_false_eq_true, if_true]
      cases hg : gen (fun i => hw (s.steps + i)) s.mem s.count with
      | none => rfl
      | some g =>
        cases ht : g.thrown with
        | some ex => simp [ht]
        | none =>
          simp only [ht]
          exact ih _ (by simp only; omega) rfl

/-- The body of `DiscardBytes` is the sequence of calls of `GenerateBlock` for the
chunks of the rounded count. -/
theorem discardBody_eq_calls (b : Build) (gen : Hw → Mem → Nat → Option GenResult) (hw : Hw)
    (mem : Mem) (n : Nat) (hW : 0 < b.discardWord)
    (hfit : n + b.discardWord - 1 ≤ b.SIZE_MAX) :
    discardBody b gen hw mem n =
      callsInOrder gen hw
        (chunks (b.discardWord * ((n + b.discardWord - 1) / b.discardWord))
          (16 * b.discardWord)) (discardStart mem) := by
  unfold discardBody RoundUpToMultipleOf
  rw [if_pos hfit]
  simp only
  rw [discardLoop_eq_calls gen (16 * b.discardWord) hw (by omega) _ _ (by simp only; omega) rfl]
  simp only [discardStart, Nat.mul_comm]

theorem callsInOrder_all_succeed (gen : Hw → Mem → Nat → Option GenResult) (hw : Hw)
    (hall : ∀ t m c g, gen (fun i => hw (t + i)) m c = some g → g.thrown = none) :
    ∀ (cs : List Nat) (acc r : DiscardResult),
      callsInOrder gen hw cs acc = some r → acc.thrown = none → r.thrown = none := by
  intro cs
  induction cs with
  | nil =>
    intro acc r h hacc
    simp only [callsInOrder, Option.some.injEq] at h
    subst h
    exact hacc
  | cons c cs ih =>
    intro acc r h hacc
    rw [callsInOrder] at h
    cases hg : gen (fun i => hw (acc.steps + i)) acc.mem c with
    | none => rw [hg] at h; simp at h
    | some g =>
      rw [hg] at h
      simp only at h
      have ht := hall _ _ _ _ hg
      rw [ht] at h
      simp only at h
      exact ih _ r h rfl

/-- On hardware that never fails the intrinsic fill serves a request of `q` whole
words with exactly `q` steps. -/
theorem intrinsic_all_ok_words (W : Nat) (hW : 0 < W) (hw : Hw)
    (hall : ∀ i, (hw i).ok = true) (mem : Mem) (output q safety : Nat) :
    ∃ r, ALL_RRI_GenerateBlock W hw mem output (W * q) safety = some r ∧
      r.rc = 1 ∧ r.steps = q := by
  obtain ⟨e, n, hp, hr⟩ := ALL_RRI_cases W hW hw mem output (W * q) safety
  have h1 := hp.steps_eq
  have h3 := hp.size_eq
  simp only [Nat.zero_add] at h1 h3
  rw [okWords_all_ok hw hall n 0] at h3
  cases e with
  | ret0 o =>
    exfalso
    obtain ⟨-, r2⟩ := hp.on_ret0 o rfl
    simp only [Nat.zero_add] at r2
    rw [okWords_all_ok hw hall n 0] at r2
    omega
  | done o =>
    obtain ⟨d1, -, -⟩ := hp.on_done o rfl
    simp only [LoopExit.locals] at h1 h3
    obtain ⟨q1, q2⟩ := div_mod_of_decomp W n o.size (W * q) h3 d1
    rw [Nat.mul_div_cancel_left _ hW] at q1
    rw [Nat.mul_mod_right] at q2
    refine ⟨_, hr, ?_, ?_⟩
    · simp only
      rw [tailBlock_zero hw o q2.symm]
    · simp only
      rw [tailBlock_zero hw o q2.symm]
      simp only
      omega

/-- With `GenerateBlock` serving every request of `q` words with `q` hardware
steps and without throwing, a sequence of calls for multiples of `W` draws as
many words from the hardware as the sizes add up to. -/
theorem callsInOrder_steps (gen : Hw → Mem → Nat → Option GenResult) (hw : Hw) (W : Nat)
    (hgen : ∀ t m q, ∃ g, gen (fun i => hw (t + i)) m (W * q) = some g ∧
      g.thrown = none ∧ g.steps = q) :
    ∀ (cs : List Nat) (acc : DiscardResult), (∀ c, c ∈ cs → W ∣ c) → acc.thrown = none →
      ∃ r, callsInOrder gen hw cs acc = some r ∧ r.thrown = none ∧
        W * r.steps = W * acc.steps + cs.sum := by
  intro cs
  induction cs with
  | nil =>
    intro acc _ hacc
    exact ⟨acc, rfl, hacc, by simp⟩
  | cons c cs ih =>
    intro acc hdiv hacc
    obtain ⟨q, rfl⟩ := hdiv c (List.mem_cons_self _ _)
    obtain ⟨g, hg, ht, hs⟩ := hgen acc.steps acc.mem q
    obtain ⟨r, hr, hr1, hr2⟩ := ih
      { thrown := none, mem := g.mem, steps := acc.steps + g.steps,
        requests := acc.requests ++ [W * q] }
      (fun c hc => hdiv c (List.mem_cons_of_mem _ hc)) rfl
    refine ⟨r, ?_, hr1, ?_⟩
    · rw [callsInOrder, hg]
      simp only
      rw [ht]
      exact hr
    · simp only at hr2
      rw [hr2, hs, List.sum_cons, Nat.mul_add]
      omega

/-- With the intrinsic fill, a word width equal to that of `DiscardBytes` and
hardware that never fails, `RDRAND::GenerateBlock` serves a request of `q` words
with `q` steps and does not throw. -/
theorem RDRAND_GenerateBlock_all_ok (b : Build) (cpu : Cpu) (hw : Hw) (m_retries discard : Nat)
    (hW : 0 < b.discardWord) (hWeq : b.rdrandW = b.discardWord)
    (himpl : b.rdrandImpl = .ALL_INTRIN) (hcpu : HasRDRAND cpu = true)
    (hall : ∀ i, (hw i).ok = true) (t : Nat) (m : Mem) (q : Nat) :
    ∃ g, RDRAND.GenerateBlock b cpu (fun i => hw (t + i)) m_retries m discard
        (b.discardWord * q) = some g ∧ g.thrown = none ∧ g.steps = q := by
  obtain ⟨r, hr, hrc, hst⟩ := intrinsic_all_ok_words b.discardWord hW (fun i => hw (t + i))
    (fun i => hall (t + i)) m discard q m_retries
  refine ⟨{ thrown := none, mem := r.mem, steps := r.steps }, ?_, rfl, hst⟩
  unfold RDRAND.GenerateBlock
  rw [hcpu, himpl, hWeq, hr]
  simp [throwIfZero, hrc]

/-- The same for `RDSEED::GenerateBlock`. -/
theorem RDSEED_GenerateBlock_all_ok (b : Build) (cpu : Cpu) (hw : Hw) (m_retries discard : Nat)
    (hW : 0 < b.discardWord) (hWeq : b.rdseedW = b.discardWord)
    (himpl : b.rdseedImpl = .ALL_INTRIN) (hcpu : HasRDSEED cpu = true)
    (hall : ∀ i, (hw i).ok = true) (t : Nat) (m : Mem) (q : Nat) :
    ∃ g, RDSEED.GenerateBlock b cpu (fun i => hw (t + i)) m_retries m discard
        (b.discardWord * q) = some g ∧ g.thrown = none ∧ g.steps = q := by
  obtain ⟨r, hr, hrc, hst⟩ := intrinsic_all_ok_words b.discardWord hW (fun i => hw (t + i))
    (fun i => hall (t + i)) m discard q m_retries
  refine ⟨{ thrown := none, mem := r.mem, steps := r.steps }, ?_, rfl, hst⟩
  unfold RDSEED.GenerateBlock
  rw [hcpu, himpl, hWeq, ALL_RSI_eq_ALL_RRI, hr]
  simp [throwIfZero, hrc]

/-- With `GenerateBlock` as in `callsInOrder_steps`, the body of `DiscardBytes(n)`
draws exactly `(n + W - 1) / W` words from the hardware. -/
theorem discardBody_words (b : Build) (gen : Hw → Mem → Nat → Option GenResult) (hw : Hw)
    (mem : Mem) (n : Nat) (hW : 0 < b.discardWord)
    (hfit : n + b.discardWord - 1 ≤ b.SIZE_MAX)
    (hgen : ∀ t m q, ∃ g, gen (fun i => hw (t + i)) m (b.discardWord * q) = some g ∧
      g.thrown = none ∧ g.steps = q) :
    ∃ r, discardBody b gen hw mem n = some r ∧ r.thrown = none ∧
      r.steps = (n + b.discardWord - 1) / b.discardWord := by
  obtain ⟨r, hr, hr1, hr2⟩ := callsInOrder_steps gen hw b.discardWord hgen
    (chunks (b.discardWord * ((n + b.discardWord - 1) / b.discardWord))
      (16 * b.discardWord)) (discardStart mem)
    (fun c hc => (chunks_mem b.discardWord c _ hW hc).2.2) rfl
  refine ⟨r, ?_, hr1, ?_⟩
  · rw [discardBody_eq_calls b gen hw mem n hW hfit]
    exact hr
  · rw [chunks_sum] at hr2
    simp only [discardStart, Nat.mul_zero, Nat.zero_add] at hr2
    exact Nat.eq_of_mul_eq_mul_left hW hr2

/-- The body of `DiscardBytes`: it comes back when every call does, its outcome is
that of the calls of `GenerateBlock` for the chunks of the rounded count, and if
none of them throws their sizes add up to the rounded count. -/
theorem discardBody_rounding (b : Build) (gen : Hw → Mem → Nat → Option GenResult) (hw : Hw)
    (mem : Mem) (n : Nat) (hW : 0 < b.discardWord)
    (hfit : n + b.discardWord - 1 ≤ b.SIZE_MAX) (hgen : ∀ h m c, gen h m c ≠ none) :
    ∃ r, discardBody b gen hw mem n = some r ∧
      callsInOrder gen hw
        (chunks (b.discardWord * ((n + b.discardWord - 1) / b.discardWord))
          (16 * b.discardWord)) (discardStart mem) = some r ∧
      (r.thrown = none →
        r.requests.sum = b.discardWord * ((n + b.discardWord - 1) / b.discardWord)) ∧
      ((∀ t m c g, gen (fun i => hw (t + i)) m c = some g → g.thrown = none) →
        r.thrown = none ∧
          r.requests.sum = b.discardWord * ((n + b.discardWord - 1) / b.discardWord)) := by
  obtain ⟨r, hr, hsum⟩ := discardBody_sum b gen hw mem n hW hfit hgen
  have hcalls := discardBody_eq_calls b gen hw mem n hW hfit
  rw [hr] at hcalls
  refine ⟨r, hr, hcalls.symm, hsum, fun hall => ?_⟩
  have hnone := callsInOrder_all_succeed gen hw hall _ _ _ hcalls.symm rfl
  exact ⟨hnone, hsum hnone⟩

/-- C7 (discard rounding).  Let `W` be the word size used by `DiscardBytes` and
let `n + W - 1` fit `size_t`.  If every call of `GenerateBlock` comes back, then
`DiscardBytes(n)` comes back and its outcome (exception, memory, hardware steps,
sizes requested) is that of the calls `GenerateBlock(discard, c)` made in order
for the chunks `c` of `R = W * ((n + W - 1) / W)`; when no call throws, and so
when every call succeeds, the sizes of the calls add up to `R`, the least
multiple of `W` that is at least `n`.  With the intrinsic fill of the same word
width and hardware that never fails, exactly `(n + W - 1) / W` words are drawn
from the hardware.  For `RDSEED` as for `RDRAND`. -/
theorem discard_rounding (b : Build) (cpu : Cpu) (hw : Hw) (m_retries : Nat) (mem : Mem)
    (discard n : Nat) (hW : 0 < b.discardWord)
    (hfit : n + b.discardWord - 1 ≤ b.SIZE_MAX)
    (hR : ∀ h m c, RDRAND.GenerateBlock b cpu h m_retries m discard c ≠ none)
    (hS : ∀ h m c, RDSEED.GenerateBlock b cpu h m_retries m discard c ≠ none) :
    (∃ r, RDRAND.DiscardBytes b cpu hw m_retries mem discard n = some r ∧
      callsInOrder (fun h m c => RDRAND.GenerateBlock b cpu h m_retries m discard c) hw
        (chunks (b.discardWord * ((n + b.discardWord - 1) / b.discardWord))
          (16 * b.discardWord)) (discardStart mem) = some r ∧
      (r.thrown = none →
        r.requests.sum = b.discardWord * ((n + b.discardWord - 1) / b.discardWord)) ∧
      ((∀ t m c g, RDRAND.GenerateBlock b cpu (fun i => hw (t + i)) m_retries m discard c
          = some g → g.thrown = none) →
        r.thrown = none ∧
          r.requests.sum = b.discardWord * ((n + b.discardWord - 1) / b.discardWord)) ∧
      (b.rdrandImpl = .ALL_INTRIN → b.rdrandW = b.discardWord → HasRDRAND cpu = true →
        (∀ i, (hw i).ok = true) →
        r.thrown = none ∧ r.steps = (n + b.discardWord - 1) / b.discardWord)) ∧
    (∃ r, RDSEED.DiscardBytes b cpu hw m_retries mem discard n = some r ∧
      callsInOrder (fun h m c => RDSEED.GenerateBlock b cpu h m_retries m discard c) hw
        (chunks (b.discardWord * ((n + b.discardWord - 1) / b.discardWord))
          (16 * b.discardWord)) (discardStart mem) = some r ∧
      (r.thrown = none →
        r.requests.sum = b.discardWord * ((n + b.discardWord - 1) / b.discardWord)) ∧
      ((∀ t m c g, RDSEED.GenerateBlock b cpu (fun i => hw (t + i)) m_retries m discard c
          = some g → g.thrown = none) →
        r.thrown = none ∧
          r.requests.sum = b.discardWord * ((n + b.discardWord - 1) / b.discardWord)) ∧
      (b.rdseedImpl = .ALL_INTRIN → b.rdseedW = b.discardWord → HasRDSEED cpu = true →
        (∀ i, (hw i).ok = true) →
        r.thrown = none ∧ r.steps = (n + b.discardWord - 1) / b.discardWord)) ∧
    n ≤ b.discardWord * ((n + b.discardWord - 1) / b.discardWord) ∧
    ∀ k, n ≤ b.discardWord * k →
      b.discardWord * ((n + b.discardWord - 1) / b.discardWord) ≤ b.discardWord * k := by
  refine ⟨?_, ?_, roundUp_least b.discardWord n hW⟩
  · obtain ⟨r, hr, hcalls, hsum, hall⟩ := discardBody_rounding b _ hw mem n hW hfit hR
    refine ⟨r, hr, hcalls, hsum, hall, ?_⟩
    intro himpl hWeq hcpu hok
    obtain ⟨r', hr', h1, h2⟩ := discardBody_words b
      (fun h m c => RDRAND.GenerateBlock b cpu h m_retries m discard c) hw mem n hW hfit
      (RDRAND_GenerateBlock_all_ok b cpu hw m_retries discard hW hWeq himpl hcpu hok)
    have : r' = r := Option.some.inj (hr'.symm.trans hr)
    subst this
    exact ⟨h1, h2⟩
  · obtain ⟨r, hr, hcalls, hsum, hall⟩ := discardBody_rounding b _ hw mem n hW hfit hS
    refine ⟨r, hr, hcalls, hsum, hall, ?_⟩
    intro himpl hWeq hcpu hok
    obtain ⟨r', hr', h1, h2⟩ := discardBody_words b
      (fun h m c => RDSEED.GenerateBlock b cpu h m_retries m discard c) hw mem n hW hfit
      (RDSEED_GenerateBlock_all_ok b cpu hw m_retries discard hW hWeq himpl hcpu hok)
    have : r' = r := Option.some.inj (hr'.symm.trans hr)
    subst this
    exact ⟨h1, h2⟩

theorem discard_rounding_witness :
    ((RDRAND.DiscardBytes intrinsicBuild ⟨true, true⟩ (failFirst 0) 8 sampleMem 1000 9).map
        (fun r => (r.thrown, r.requests, r.steps)) = some (none, [16], 2) ∧
     (RDRAND.DiscardBytes intrinsicBuild ⟨true, true⟩ (failFirst 0) 8 sampleMem 1000 8).map
        (fun r => (r.thrown, r.requests, r.steps)) = some (none, [8], 1) ∧
     (RDRAND.DiscardBytes intrinsicBuild ⟨true, true⟩ (failFirst 0) 8 sampleMem 1000 0).map
        (fun r => (r.thrown, r.requests, r.steps)) = some (none, [], 0) ∧
     (RDRAND.DiscardBytes intrinsicBuild ⟨true, true⟩ (failFirst 0) 8 sampleMem 1000 9).map
        (fun r => readBytes r.mem 1000 17) =
      some [0x00, 0x77, 0x66, 0x55, 0x44, 0x33, 0x22, 0x11,
            0x01, 0x77, 0x66, 0x55, 0x44, 0x33, 0x22, 0x11, 0xEE]) ∧
    ((∃ r, RDRAND.DiscardBytes intrinsicBuild ⟨true, true⟩ (failFirst 0) 8 sampleMem 1000 9
        = some r ∧
      callsInOrder
        (fun h m c => RDRAND.GenerateBlock intrinsicBuild ⟨true, true⟩ h 8 m 1000 c)
        (failFirst 0) (chunks (8 * ((9 + 8 - 1) / 8)) (16 * 8)) (discardStart sampleMem)
        = some r ∧
      (r.thrown = none → r.requests.sum = 8 * ((9 + 8 - 1) / 8)) ∧
      ((∀ t m c g, RDRAND.GenerateBlock intrinsicBuild ⟨true, true⟩
            (fun i => failFirst 0 (t + i)) 8 m 1000 c = some g → g.thrown = none) →
        r.thrown = none ∧ r.requests.sum = 8 * ((9 + 8 - 1) / 8)) ∧
      (FillImpl.ALL_INTRIN = .ALL_INTRIN → 8 = 8 → HasRDRAND ⟨true, true⟩ = true →
        (∀ i, (failFirst 0 i).ok = true) →
        r.thrown = none ∧ r.steps = (9 + 8 - 1) / 8)) ∧
    (∃ r, RDSEED.DiscardBytes intrinsicBuild ⟨true, true⟩ (failFirst 0) 8 sampleMem 1000 9
        = some r ∧
      callsInOrder
        (fun h m c => RDSEED.GenerateBlock intrinsicBuild ⟨true, true⟩ h 8 m 1000 c)
        (failFirst 0) (chunks (8 * ((9 + 8 - 1) / 8)) (16 * 8)) (discardStart sampleMem)
        = some r ∧
      (r.thrown = none → r.requests.sum = 8 * ((9 + 8 - 1) / 8)) ∧
      ((∀ t m c g, RDSEED.GenerateBlock intrinsicBuild ⟨true, true⟩
            (fun i => failFirst 0 (t + i)) 8 m 1000 c = some g → g.thrown = none) →
        r.thrown = none ∧ r.requests.sum = 8 * ((9 + 8 - 1) / 8)) ∧
      (FillImpl.ALL_INTRIN = .ALL_INTRIN → 8 = 8 → HasRDSEED ⟨true, true⟩ = true →
        (∀ i, (failFirst 0 i).ok = true) →
        r.thrown = none ∧ r.steps = (9 + 8 - 1) / 8)) ∧
    9 ≤ 8 * ((9 + 8 - 1) / 8) ∧
    ∀ k, 9 ≤ 8 * k → 8 * ((9 + 8 - 1) / 8) ≤ 8 * k) :=
  ⟨⟨by rfl, by rfl, by rfl, by decide⟩,
    discard_rounding intrinsicBuild ⟨true, true⟩ (failFirst 0) 8 sampleMem 1000 9
      (by decide) (by decide)
      (fun h m c => RDRAND_GenerateBlock_total intrinsicBuild (by decide) rfl _ h 8 m 1000 c)
      (fun h m c => RDSEED_GenerateBlock_total intrinsicBuild (by decide) rfl _ h 8 m 1000 c)⟩

/-- C17 (error kind and routine name), evaluated where it fails.  In a build
that selects the NASM routines, a failure reported by `NASM_RSA_GenerateBlock`
makes `RDSEED::GenerateBlock` throw `RDRAND_Err`, the error of the other source.
The MASM, intrinsic and inline-assembly branches of the same method throw
`RDSEED_Err`, and every branch of `RDRAND::GenerateBlock` throws `RDRAND_Err`;
each names the routine that was called. -/
theorem rdseed_nasm_throws_rdrand_err :
    (RDSEED.GenerateBlock (buildWith .NASM) ⟨true, true⟩ (failFirst 1) 0 sampleMem 100 8).map
        (fun r => r.thrown) = some (some (.RDRAND_Err "NASM_RSA_GenerateBlock")) ∧
    (RDSEED.GenerateBlock (buildWith .MASM) ⟨true, true⟩ (failFirst 1) 0 sampleMem 100 8).map
        (fun r => r.thrown) = some (some (.RDSEED_Err "MASM_RSA_GenerateBlock")) ∧
    (RDSEED.GenerateBlock (buildWith .ALL_INTRIN) ⟨true, true⟩ (failFirst 1) 0 sampleMem 100
        8).map (fun r => r.thrown) = some (some (.RDSEED_Err "ALL_RSI_GenerateBlock")) ∧
    (RDSEED.GenerateBlock (buildWith .GCC_ASM) ⟨true, true⟩ (failFirst 1) 0 sampleMem 100
        8).map (fun r => r.thrown) = some (some (.RDSEED_Err "GCC_RSA_GenerateBlock")) ∧
    (RDRAND.GenerateBlock (buildWith .MASM) ⟨true, true⟩ (failFirst 1) 0 sampleMem 100 8).map
        (fun r => r.thrown) = some (some (.RDRAND_Err "MASM_RRA_GenerateBlock")) ∧
    (RDRAND.GenerateBlock (buildWith .NASM) ⟨true, true⟩ (failFirst 1) 0 sampleMem 100 8).map
        (fun r => r.thrown) = some (some (.RDRAND_Err "NASM_RRA_GenerateBlock")) ∧
    (RDRAND.GenerateBlock (buildWith .ALL_INTRIN) ⟨true, true⟩ (failFirst 1) 0 sampleMem 100
        8).map (fun r => r.thrown) = some (some (.RDRAND_Err "ALL_RRI_GenerateBlock")) ∧
    (RDRAND.GenerateBlock (buildWith .GCC_ASM) ⟨true, true⟩ (failFirst 1) 0 sampleMem 100
        8).map (fun r => r.thrown) = some (some (.RDRAND_Err "GCC_RRA_GenerateBlock")) := by
  refine ⟨?_, ?_, ?_, ?_, ?_, ?_, ?_, ?_⟩ <;> rfl

/-- When the word loop is left because fewer than `W` bytes remain, either it has
executed no step or its last step succeeded. -/
theorem wordLoop_done_last (W : Nat) (hw : Hw) : ∀ (fuel : Nat) (s o : Locals),
    wordLoop W hw fuel s = some (.done o) →
      (o.steps = s.steps ∧ s.size < W) ∨
        (s.steps < o.steps ∧ (hw (o.steps - 1)).ok = true) := by
  intro fuel
  induction fuel with
  | zero => intro s o h; simp [wordLoop] at h
  | succ fuel ih =>
    intro s o h
    rw [wordLoop] at h
    by_cases hsz : W ≤ s.size
    · by_cases hok : (hw s.steps).ok = true
      · simp only [hsz, hok, if_true] at h
        rcases ih _ o h with ⟨h1, -⟩ | ⟨h1, h2⟩
        · simp only at h1
          right
          refine ⟨by omega, ?_⟩
          rw [h1, Nat.add_sub_cancel]
          exact hok
        · simp only at h1
          exact Or.inr ⟨by omega, h2⟩
      · by_cases hsaf : s.safety = 0
        · simp [hsz, hok, hsaf] at h
        · simp only [hsz, hok, hsaf, if_true, if_false] at h
          rcases ih _ o h with ⟨-, h2⟩ | ⟨h1, h2⟩
          · simp only at h2
            omega
          · simp only at h1
            exact Or.inr ⟨by omega, h2⟩
    · simp only [hsz, if_false, Option.some.injEq, LoopExit.done.injEq] at h
      subst h
      exact Or.inl ⟨rfl, by omega⟩

theorem okWords_lt_of_last_ok (hw : Hw) (n1 n2 : Nat) (h : n1 < n2)
    (hok : (hw (n2 - 1)).ok = true) :
    (okWords hw 0 n1).length < (okWords hw 0 n2).length := by
  obtain ⟨k, rfl⟩ : ∃ k, n2 = k + 1 := ⟨n2 - 1, by omega⟩
  rw [Nat.add_sub_cancel] at hok
  rw [okWords_succ_last, Nat.zero_add, if_pos hok, List.length_append, List.length_singleton]
  have := (okWords_mono hw 0 n1 (k - n1)).1
  rw [Nat.add_sub_cancel' (by omega)] at this
  omega

/-- C18 (single-attempt tail).  Let `size % W ≠ 0` and let the word loop be
through after `t` steps within the budget: the first `t` steps hold `size / W`
successes, the last of them is a success (or `t = 0`), and their failures number
at most `b`.  If step `t`, the one for the trailing bytes, fails, the intrinsic
fill returns 0 after exactly `t + 1` steps, however large `b` is, and every byte
from `output + W * (size / W)` on is what it was before the call. -/
theorem single_attempt_tail (W : Nat) (hW : 0 < W) (hw : Hw) (mem : Mem)
    (output size b t : Nat) (hmod : size % W ≠ 0)
    (hcnt : (okWords hw 0 t).length = size / W)
    (hlast : t = 0 ∨ (hw (t - 1)).ok = true)
    (hbud : t - size / W ≤ b)
    (hfail : (hw t).ok = false) :
    ∃ r, ALL_RRI_GenerateBlock W hw mem output size b = some r ∧
      ALL_RSI_GenerateBlock W hw mem output size b = some r ∧
      r.rc = 0 ∧ r.steps = t + 1 ∧
      ∀ a, output + W * (size / W) ≤ a → r.mem a = mem a := by
  obtain ⟨e, n, he, hp⟩ := wordLoop_spec W hW hw (size + b + 1)
    { mem := mem, output := output, size := size, safety := b, steps := 0 }
    (by simp only; omega)
  have h1 := hp.steps_eq
  have h2 := hp.output_eq
  have h3 := hp.size_eq
  simp only [Nat.zero_add] at h1 h2 h3
  have hcmp := okWords_compare hw t n
  cases e with
  | ret0 o =>
    exfalso
    obtain ⟨r1, r2⟩ := hp.on_ret0 o rfl
    simp only [LoopExit.locals, Nat.zero_add] at h3 r2
    have : (okWords hw 0 n).length + 1 ≤ size / W := by
      rw [Nat.le_div_iff_mul_le hW, Nat.mul_comm, Nat.mul_succ]
      omega
    omega
  | done o =>
    obtain ⟨d1, -, d3⟩ := hp.on_done o rfl
    simp only [LoopExit.locals, Nat.zero_add] at h1 h2 h3 d3
    obtain ⟨q1, q2⟩ := div_mod_of_decomp W _ o.size size h3 d1
    have hlastn := wordLoop_done_last W hw _ _ o he
    simp only at hlastn
    have hnt : n = t := by
      rcases Nat.lt_trichotomy n t with hlt | heq | hgt
      · exfalso
        rcases hlast with h0 | hok
        · omega
        · have := okWords_lt_of_last_ok hw n t hlt hok
          omega
      · exact heq
      · exfalso
        rcases hlastn with ⟨h0, -⟩ | ⟨-, hok⟩
        · omega
        · rw [h1] at hok
          have := okWords_lt_of_last_ok hw t n hgt hok
          omega
    have hz : o.size ≠ 0 := by rw [← q2]; exact hmod
    have hok : ¬ (hw o.steps).ok = true := by rw [h1, hnt, hfail]; simp
    obtain ⟨t1, t2, t3, -⟩ := tailBlock_fail hw o hz hok
    have hres : ALL_RRI_GenerateBlock W hw mem output size b = some (tailBlock hw o) := by
      unfold ALL_RRI_GenerateBlock
      rw [he]
    refine ⟨_, hres, hres, t1, by rw [t3, h1, hnt], ?_⟩
    intro a ha
    rw [t2]
    exact d3 a (by rw [h2, ← q1]; exact ha)

theorem single_attempt_tail_witness :
    ∃ r, ALL_RRI_GenerateBlock 8 okThenFail sampleMem 100 11 1000 = some r ∧
      ALL_RSI_GenerateBlock 8 okThenFail sampleMem 100 11 1000 = some r ∧
      r.rc = 0 ∧ r.steps = 1 + 1 ∧
      ∀ a, 100 + 8 * (11 / 8) ≤ a → r.mem a = sampleMem a :=
  single_attempt_tail 8 (by decide) okThenFail sampleMem 100 11 1000 1
    (by decide) (by decide) (Or.inr (by decide)) (by decide) (by decide)

end CryptoPP

namespace pycryptopp

/-- C19 (`decrypt_and_verify` does not look at the verification result).  When
the result string can be allocated, `AESGCM_decrypt_verify` returns a string of
the length of the message whose bytes are those `DecryptAndVerify` has stored,
never `NULL`; and it returns the same string when the value returned by
`DecryptAndVerify` is replaced by any other, `true` or `false`. -/
theorem decrypt_verify_ignores_flag (alloc : Nat → Bool) (d : Cipher) (self : AESGCM)
    (msg tag : PyString) (halloc : alloc msg.length = true) :
    ∃ s, AESGCM_decrypt_verify alloc d self msg tag = some s ∧
      s.length = msg.length ∧
      (∀ i, i < msg.length → s.getD i 0 = (d tag self.iv [] msg).2 i) ∧
      ∀ verified : Bool,
        AESGCM_decrypt_verify alloc (fun a b c e => (verified, (d a b c e).2)) self msg tag
          = some s := by
  refine ⟨(List.range msg.length).map (d tag self.iv [] msg).2, ?_, ?_, ?_, ?_⟩
  · simp [AESGCM_decrypt_verify, halloc]
  · simp
  · intro i hi
    simp [List.getD_eq_getElem?_getD, hi]
  · intro verified
    simp [AESGCM_decrypt_verify, halloc]

theorem decrypt_verify_ignores_flag_witness :
    AESGCM_decrypt_verify (fun _ => true) rejectingCipher ⟨[0, 0, 0, 0]⟩ [10, 20, 30] [9, 9]
      = some [11, 21, 31] ∧
    ∃ s, AESGCM_decrypt_verify (fun _ => true) rejectingCipher ⟨[0, 0, 0, 0]⟩ [10, 20, 30]
        [9, 9] = some s ∧
      s.length = [10, 20, 30].length ∧
      (∀ i, i < [10, 20, 30].length →
        s.getD i 0 = (rejectingCipher [9, 9] (AESGCM.mk [0, 0, 0, 0]).iv [] [10, 20, 30]).2 i) ∧
      ∀ verified : Bool,
        AESGCM_decrypt_verify (fun _ => true)
            (fun a b c e => (verified, (rejectingCipher a b c e).2)) ⟨[0, 0, 0, 0]⟩
            [10, 20, 30] [9, 9]
          = some s :=
  ⟨by decide,
    decrypt_verify_ignores_flag (fun _ => true) rejectingCipher ⟨[0, 0, 0, 0]⟩ [10, 20, 30]
      [9, 9] rfl⟩

end pycryptopp
